import Mathlib

/-!
# ghlabeler: reconciliation of GitHub issue labels

A shallow embedding of `src/labels.go` (package `ghlabels`).

* `*string` fields are `Option String`; dereferencing `none` is the Go nil-pointer
  panic, which ends the run with the calls issued so far.
* The GitHub client is an external collaborator.  It is modelled as a function that
  answers every call, given the calls issued before it, with "error" or "no error".
  The embedding records the sequence of calls handed to the client and the lines
  written with `log.Printf`.  The listing of `GetLabels` is a read; its answer is a
  parameter and it is not recorded among the calls.
* Slices are lists; the elements of a `Labels` slice are taken to be non-nil pointers.
-/

namespace Ghlabels

/-- Modelled from the spec: the struct `github.Label` is declared in the go-github
library, not under `src/`.  Section 3 of the spec gives its fields: a name, a color and an
optional description.  The source reads `Name` and `Color` through pointers
(`*label.Name`, `*label.Color`), so all three are optional here. -/
structure Label where
  Name : Option String
  Color : Option String
  Description : Option String
  deriving DecidableEq, Repr

/-- The Go type `Labels []*github.Label`. -/
abbrev Labels := List Label

/-- Modelled from the spec: the struct `Config` is declared in a file of the repository
that is not under `src/`.  Section 6 of the spec gives its shape: `Owner`, `Host` and the
ordered sequence `Labels` of desired label definitions. -/
structure Config where
  Owner : String
  Host : String
  Labels : Labels
  deriving DecidableEq, Repr

/-- One call handed to `l.Client.Issues`, with the arguments the source passes. -/
inductive Call where
  | CreateLabel (owner repo : String) (label : Label)
  | EditLabel (owner repo name : String) (label : Label)
  | DeleteLabel (owner repo name : String)
  deriving DecidableEq, Repr

/-- The collaborator behind `l.Client.Issues`: given the calls already issued and the
call at hand it answers `true` when the call returns `err != nil`. -/
abbrev IssuesService := List Call → Call → Bool

/-- The Go struct `GHLabeler`. -/
structure GHLabeler where
  Client : IssuesService
  Config : Config

/-- What a run has done so far: the calls handed to the client, oldest first, and the
lines written with `log.Printf`. -/
structure Trace where
  calls : List Call
  logs : List String
  deriving DecidableEq, Repr

/-- The trace of a run that has done nothing yet. -/
def Trace.empty : Trace := ⟨[], []⟩

/-- How a function of the source ends: it returns (`done`) or it dereferences a nil
pointer (`panic`); either way the trace holds what was done before. -/
inductive Outcome where
  | done (t : Trace)
  | panic (t : Trace)
  deriving DecidableEq, Repr

/-- The trace an outcome carries. -/
def Outcome.trace : Outcome → Trace
  | .done t => t
  | .panic t => t

/-- The calls an outcome carries. -/
def Outcome.calls (o : Outcome) : List Call := o.trace.calls

/-- Whether the run ended in a nil-pointer panic. -/
def Outcome.panicked : Outcome → Bool
  | .done _ => false
  | .panic _ => true

/-- Sequencing of two statements: the second runs only if the first returned. -/
def Outcome.andThen (o : Outcome) (f : Trace → Outcome) : Outcome :=
  match o with
  | .done t => f t
  | .panic t => .panic t

/-- The pattern `_, err := l.Client.Issues.X(...); if err != nil { log.Printf(msg) }`:
the call is issued, and a line is logged when it fails.  Nothing else depends on `err`. -/
def GHLabeler.issue (l : GHLabeler) (c : Call) (msg : String) (t : Trace) : Trace :=
  { calls := t.calls ++ [c]
    logs := if l.Client t.calls c then t.logs ++ [msg] else t.logs }

/-- The line `"Error: Unable to Create Label for %s/%s\n"` of `CreateMissing`. -/
def createErrorLine (owner repo : String) : String :=
  "Error: Unable to Create Label for " ++ owner ++ "/" ++ repo ++ "\n"

/-- The line `"Error: Unable to Access %s/%s\n"` of `UpdateExisting` and `RemoveAbsent`. -/
def accessErrorLine (owner repo : String) : String :=
  "Error: Unable to Access " ++ owner ++ "/" ++ repo ++ "\n"

/-- The inner loop of `CreateMissing` (labels.go 64-68): scans all of `existing`,
clearing the flag at every `el` with `*label.Name == *el.Name`; there is no `break`.
`none` is a nil dereference. -/
def CreateMissing.scan (label : Label) : Labels → Bool → Option Bool
  | [], create => some create
  | el :: rest, create =>
    match label.Name, el.Name with
    | some n, some m => CreateMissing.scan label rest (if n = m then false else create)
    | _, _ => none

/-- The outer loop of `CreateMissing` (labels.go 62-75) over the remaining desired labels. -/
def CreateMissing.loop (l : GHLabeler) (existing : Labels) (repo : String) :
    Labels → Trace → Outcome
  | [], t => .done t
  | label :: rest, t =>
    match CreateMissing.scan label existing true with
    | none => .panic t
    | some true =>
      CreateMissing.loop l existing repo rest
        (l.issue (.CreateLabel l.Config.Owner repo label)
          (createErrorLine l.Config.Owner repo) t)
    | some false => CreateMissing.loop l existing repo rest t

/-- The Go method `GHLabeler.CreateMissing` (labels.go 60-76). -/
def GHLabeler.CreateMissing (l : GHLabeler) (existing : Labels) (repo : String)
    (t : Trace) : Outcome :=
  CreateMissing.loop l existing repo l.Config.Labels t

/-- The inner loop of `UpdateExisting` (labels.go 81-88): for every `el` of `existing`,
`*label.Name == *el.Name && *label.Color != *el.Color` (the colors are read only when the
names are equal) issues `EditLabel(owner, repo, *label.Name, label)`; there is no `break`. -/
def UpdateExisting.inner (l : GHLabeler) (repo : String) (label : Label) :
    Labels → Trace → Outcome
  | [], t => .done t
  | el :: rest, t =>
    match label.Name, el.Name with
    | some n, some m =>
      if n = m then
        match label.Color, el.Color with
        | some c, some k =>
          if c ≠ k then
            UpdateExisting.inner l repo label rest
              (l.issue (.EditLabel l.Config.Owner repo n label)
                (accessErrorLine l.Config.Owner repo) t)
          else UpdateExisting.inner l repo label rest t
        | _, _ => .panic t
      else UpdateExisting.inner l repo label rest t
    | _, _ => .panic t

/-- The outer loop of `UpdateExisting` (labels.go 80-89) over the remaining desired labels. -/
def UpdateExisting.loop (l : GHLabeler) (existing : Labels) (repo : String) :
    Labels → Trace → Outcome
  | [], t => .done t
  | label :: rest, t =>
    (UpdateExisting.inner l repo label existing t).andThen
      (UpdateExisting.loop l existing repo rest)

/-- The Go method `GHLabeler.UpdateExisting` (labels.go 79-90). -/
def GHLabeler.UpdateExisting (l : GHLabeler) (existing : Labels) (repo : String)
    (t : Trace) : Outcome :=
  UpdateExisting.loop l existing repo l.Config.Labels t

/-- The inner loop of `RemoveAbsent` (labels.go 99-103): scans all of the desired labels,
clearing the flag at every `label` with `*label.Name == *el.Name`; there is no `break`. -/
def RemoveAbsent.scan (el : Label) : Labels → Bool → Option Bool
  | [], delete => some delete
  | label :: rest, delete =>
    match label.Name, el.Name with
    | some n, some m => RemoveAbsent.scan el rest (if n = m then false else delete)
    | _, _ => none

/-- The outer loop of `RemoveAbsent` (labels.go 97-110) over the remaining existing labels.
The call passes `*el.Name`, a further dereference. -/
def RemoveAbsent.loop (l : GHLabeler) (repo : String) : Labels → Trace → Outcome
  | [], t => .done t
  | el :: rest, t =>
    match RemoveAbsent.scan el l.Config.Labels true with
    | none => .panic t
    | some true =>
      match el.Name with
      | none => .panic t
      | some m =>
        RemoveAbsent.loop l repo rest
          (l.issue (.DeleteLabel l.Config.Owner repo m)
            (accessErrorLine l.Config.Owner repo) t)
    | some false => RemoveAbsent.loop l repo rest t

/-- The Go method `GHLabeler.RemoveAbsent` (labels.go 94-111). -/
def GHLabeler.RemoveAbsent (l : GHLabeler) (existing : Labels) (repo : String)
    (t : Trace) : Outcome :=
  RemoveAbsent.loop l repo existing t

/-- The Go method `GHLabeler.SetLabels` (labels.go 51-57). -/
def GHLabeler.SetLabels (l : GHLabeler) (existing : Labels) (repo : String)
    (removeAbsent : Bool) (t : Trace) : Outcome :=
  (l.CreateMissing existing repo t).andThen fun t1 =>
    (l.UpdateExisting existing repo t1).andThen fun t2 =>
      if removeAbsent then l.RemoveAbsent existing repo t2 else .done t2

/-- Every label of the list has a name and a color (the data model of the spec, where
both are plain strings). -/
def WellFormed (ls : Labels) : Prop :=
  ∀ x ∈ ls, x.Name.isSome = true ∧ x.Color.isSome = true

instance (ls : Labels) : Decidable (WellFormed ls) := by
  unfold WellFormed; infer_instance

/-- No two labels of the list share a name. -/
def UniqueNames (ls : Labels) : Prop := (ls.map (·.Name)).Nodup

instance (ls : Labels) : Decidable (UniqueNames ls) := by
  unfold UniqueNames; infer_instance

/-- Every label of the list has a name (`Name` is not nil). -/
def NamesPresent (ls : Labels) : Prop := ∀ x ∈ ls, x.Name.isSome = true

instance (ls : Labels) : Decidable (NamesPresent ls) := by
  unfold NamesPresent; infer_instance

/-- A label given by name and color, without a description. -/
def mkLabel (name color : String) : Label := ⟨some name, some color, none⟩

/-- A client whose calls all succeed. -/
def okClient : IssuesService := fun _ _ => false

/-- A client whose calls all fail. -/
def failClient : IssuesService := fun _ _ => true

/-- The `EditLabel` call of labels.go 83 for the desired label `d`: identified by
`*d.Name` and carrying `d`. -/
def editCallOf (owner repo : String) (d : Label) : Call :=
  .EditLabel owner repo (d.Name.getD "") d

/-- The `DeleteLabel` call of labels.go 105 for the existing label `e`: identified by
`*e.Name`. -/
def deleteCallOf (owner repo : String) (e : Label) : Call :=
  .DeleteLabel owner repo (e.Name.getD "")

/-- The existing labels that carry the name of `d` with a color other than that of `d`. -/
def staleFor (d : Label) (existing : Labels) : Labels :=
  existing.filter fun e => decide (e.Name = d.Name) && decide (e.Color ≠ d.Color)

/-- The labels of `ls` whose name no label of `other` carries. -/
def unmatched (other ls : Labels) : Labels :=
  ls.filter fun x => decide (∀ y ∈ other, y.Name ≠ x.Name)

/-- The calls of a run over lists whose labels all have a name and a color: the creates,
then the edits, then (with `removeAbsent`) the deletes. -/
def plannedCalls (owner repo : String) (desired existing : Labels) (removeAbsent : Bool) :
    List Call :=
  (unmatched existing desired).map (Call.CreateLabel owner repo)
    ++ (desired.flatMap fun d => (staleFor d existing).map fun _ => editCallOf owner repo d)
    ++ if removeAbsent then (unmatched desired existing).map (deleteCallOf owner repo) else []

/-- The phase a call belongs to: 0 for a create, 1 for an edit, 2 for a delete. -/
def Call.phase : Call → Nat
  | .CreateLabel _ _ _ => 0
  | .EditLabel _ _ _ _ => 1
  | .DeleteLabel _ _ _ => 2

/-- The call is a `CreateLabel`. -/
def Call.isCreate (c : Call) : Bool := c.phase = 0

/-- The call is an `EditLabel`. -/
def Call.isEdit (c : Call) : Bool := c.phase = 1

/-- The call is a `DeleteLabel`. -/
def Call.isDelete (c : Call) : Bool := c.phase = 2

/-- The label name a call is about: the name of the label to create, or the name that
identifies the label to edit or to delete. -/
def Call.target : Call → Option String
  | .CreateLabel _ _ label => label.Name
  | .EditLabel _ _ name _ => some name
  | .DeleteLabel _ _ name => some name

/-- The desired labels of the example scenario of the spec (section 8). -/
def exampleConfig : Config :=
  ⟨"octo", "https://api.github.com/", [mkLabel "bug" "d73a4a", mkLabel "wontfix" "ffffff"]⟩

/-- A labeler over the example configuration whose calls all succeed. -/
def exampleLabeler : GHLabeler := ⟨okClient, exampleConfig⟩

/-- The existing labels of the example scenario of the spec (section 8). -/
def exampleExisting : Labels := [mkLabel "bug" "d73a4a", mkLabel "stale" "cccccc"]

/-- The first label of the list that carries the given name: the `find` of section 4.1 of
the spec.  The source has no such function; it is used to state what a first-match rule
would compare with. -/
def firstMatch (ls : Labels) (name : String) : Option Label :=
  ls.find? fun e => decide (e.Name = some name)

/-- Modelled from the spec: the remote repository is an external collaborator and no code
of it exists.  The effect of a successful call on the remote label set is the one the
claims on idempotence and convergence spell out: create adds the label, update replaces
the label of that name by the given definition, delete removes the label of that name. -/
def applyCall (remote : Labels) : Call → Labels
  | .CreateLabel _ _ label => remote ++ [label]
  | .EditLabel _ _ name label => remote.map fun e => if e.Name = some name then label else e
  | .DeleteLabel _ _ name => remote.filter fun e => decide (e.Name ≠ some name)

/-- The remote label set after a sequence of successful calls, applied in order. -/
def applyCalls (remote : Labels) (calls : List Call) : Labels :=
  calls.foldl applyCall remote

/-- What a call makes of one remote label that it does not remove: an edit identified by
the name of the label replaces it. -/
def relabel (x : Label) : Call → Label
  | .EditLabel _ _ name label => if x.Name = some name then label else x
  | _ => x

/-- The answer of `l.Client.Issues.ListLabels(owner, repo, nil)`, given the owner and the
repository: the label slice and whether `err != nil` (the response in between is dropped
by the source).  Listing reads the remote set and is not recorded among the calls of a
trace. -/
abbrev ListLabelsService := String → String → Labels × Bool

/-- The Go method `GHLabeler.GetLabels` (labels.go 41-47): a line is logged when the listing
fails, and `labels` is returned as the collaborator gave it in either case. -/
def GHLabeler.GetLabels (l : GHLabeler) (listLabels : ListLabelsService) (repo : String)
    (t : Trace) : Labels × Trace :=
  match listLabels l.Config.Owner repo with
  | (labels, err) =>
    (labels,
      if err then { t with logs := t.logs ++ [accessErrorLine l.Config.Owner repo] } else t)

/-- The filter that the flag-and-scan loop of `CreateMissing` is compared with: the desired
labels, in order, whose name is not among the names of the existing labels. -/
def missingByMembership (desired existing : Labels) : Labels :=
  desired.filter fun d => decide (d.Name ∉ existing.map (·.Name))

/-- The filter that the flag-and-scan loop of `RemoveAbsent` is compared with: the existing
labels, in order, whose name is not among the names of the desired labels. -/
def absentByMembership (desired existing : Labels) : Labels :=
  existing.filter fun e => decide (e.Name ∉ desired.map (·.Name))

/-- Modelled from the spec: the method `ListLabels` of the go-github client behind
`l.Client.Issues` is not under `src/`.  Each of its error returns hands back a nil label
slice, which is what section 7 of the spec relies on when a failed fetch leaves the
existing set empty.  A listing meets this when no label comes with an error. -/
def NilOnError (listLabels : ListLabelsService) : Prop :=
  ∀ owner repo : String, (listLabels owner repo).2 = true → (listLabels owner repo).1 = []

/-- A listing that fails for the repository `gone` and answers with the existing labels of
the example scenario for any other repository. -/
def exampleListing : ListLabelsService :=
  fun _ repo => if repo = "gone" then ([], true) else (exampleExisting, false)

/-- The function `f` of the client and the trace so far appends the calls `cs` to the
trace and ends in a panic exactly when `p` holds, whatever the client answers and
whatever was issued before. -/
def Emits (f : IssuesService → Trace → Outcome) (cs : List Call) (p : Bool) : Prop :=
  ∀ (client : IssuesService) (t : Trace),
    (f client t).calls = t.calls ++ cs ∧ (f client t).panicked = p

/-! ## Auxiliary lemmas -/

@[simp] theorem issue_calls (l : GHLabeler) (c : Call) (msg : String) (t : Trace) :
    (l.issue c msg t).calls = t.calls ++ [c] := rfl

theorem Outcome_eq_done_of_not_panicked {o : Outcome} (h : o.panicked = false) :
    o = .done o.trace := by
  cases o <;> simp_all [Outcome.panicked, Outcome.trace]

theorem Outcome_eq_panic_of_panicked {o : Outcome} (h : o.panicked = true) :
    o = .panic o.trace := by
  cases o <;> simp_all [Outcome.panicked, Outcome.trace]

theorem Emits_done : Emits (fun _ t => Outcome.done t) [] false := by
  intro client t; simp [Outcome.calls, Outcome.trace, Outcome.panicked]

theorem Emits_panic : Emits (fun _ t => Outcome.panic t) [] true := by
  intro client t; simp [Outcome.calls, Outcome.trace, Outcome.panicked]

/-- Issuing one call and going on with `f`. -/
theorem Emits_issue {f : IssuesService → Trace → Outcome} {cs : List Call} {p : Bool}
    (hf : Emits f cs p) (cfg : Config) (c : Call) (msg : String) :
    Emits (fun client t => f client ((GHLabeler.mk client cfg).issue c msg t)) (c :: cs) p := by
  intro client t
  have := hf client ((GHLabeler.mk client cfg).issue c msg t)
  rw [issue_calls, List.append_assoc, List.singleton_append] at this
  exact this

/-- Sequencing: the second function runs only if the first did not panic. -/
theorem Emits_andThen {f g : IssuesService → Trace → Outcome} {cs1 cs2 : List Call}
    {p1 p2 : Bool} (hf : Emits f cs1 p1) (hg : Emits g cs2 p2) :
    Emits (fun client t => (f client t).andThen (g client))
      (cs1 ++ if p1 then [] else cs2) (p1 || p2) := by
  intro client t
  obtain ⟨h1, h2⟩ := hf client t
  beta_reduce
  cases p1 with
  | true =>
    rw [Outcome_eq_panic_of_panicked h2]
    simpa [Outcome.andThen, Outcome.calls, Outcome.trace, Outcome.panicked] using h1
  | false =>
    rw [Outcome_eq_done_of_not_panicked h2]
    obtain ⟨h3, h4⟩ := hg client (f client t).trace
    simp only [Outcome.andThen, Bool.false_or, Bool.false_eq_true, if_false]
    refine ⟨?_, h4⟩
    rw [h3]
    have : (f client t).trace.calls = t.calls ++ cs1 := h1
    rw [this, List.append_assoc]

/-- The calls of the outer loop of `CreateMissing` do not depend on the client or on the
trace so far, and all of them create a desired label. -/
theorem CreateMissing_loop_emits (cfg : Config) (existing : Labels) (repo : String)
    (ds : Labels) :
    ∃ cs p, Emits (fun client t => CreateMissing.loop ⟨client, cfg⟩ existing repo ds t) cs p ∧
      ∀ c ∈ cs, ∃ d ∈ ds, c = Call.CreateLabel cfg.Owner repo d := by
  induction ds with
  | nil => exact ⟨[], false, by simpa [CreateMissing.loop] using Emits_done, by simp⟩
  | cons d rest ih =>
    obtain ⟨cs, p, hE, hK⟩ := ih
    have hK2 : ∀ c ∈ cs, ∃ x ∈ d :: rest, c = Call.CreateLabel cfg.Owner repo x := by
      intro c hc
      obtain ⟨x, hx, rfl⟩ := hK c hc
      exact ⟨x, List.mem_cons_of_mem _ hx, rfl⟩
    rcases hs : CreateMissing.scan d existing true with _ | b
    · exact ⟨[], true, by simpa [CreateMissing.loop, hs] using Emits_panic, by simp⟩
    · cases b with
      | true =>
        refine ⟨Call.CreateLabel cfg.Owner repo d :: cs, p, ?_, ?_⟩
        · simpa [CreateMissing.loop, hs] using
            Emits_issue hE cfg (Call.CreateLabel cfg.Owner repo d) (createErrorLine cfg.Owner repo)
        · intro c hc
          rcases List.mem_cons.mp hc with rfl | hc
          · exact ⟨d, List.mem_cons_self _ _, rfl⟩
          · exact hK2 c hc
      | false =>
        exact ⟨cs, p, by simpa [CreateMissing.loop, hs] using hE, hK2⟩


theorem WellFormed_namesPresent {ls : Labels} (h : WellFormed ls) : NamesPresent ls :=
  fun x hx => (h x hx).1

theorem NamesPresent_tail {x : Label} {ls : Labels} (h : NamesPresent (x :: ls)) :
    NamesPresent ls :=
  fun y hy => h y (List.mem_cons_of_mem _ hy)

theorem WellFormed_tail {x : Label} {ls : Labels} (h : WellFormed (x :: ls)) :
    WellFormed ls :=
  fun y hy => h y (List.mem_cons_of_mem _ hy)

/-- With all names present the flag scan of `CreateMissing` never panics and leaves the
flag set exactly when no existing label has the name of `label`. -/
theorem CreateMissing_scan_eq (label : Label) (hl : label.Name.isSome = true)
    (existing : Labels) (hex : NamesPresent existing) (b : Bool) :
    CreateMissing.scan label existing b
      = some (b && decide (∀ e ∈ existing, e.Name ≠ label.Name)) := by
  obtain ⟨n, hn⟩ := Option.isSome_iff_exists.mp hl
  induction existing generalizing b with
  | nil => simp [CreateMissing.scan]
  | cons el rest ih =>
    obtain ⟨m, hm⟩ := Option.isSome_iff_exists.mp (hex el (List.mem_cons_self _ _))
    simp only [CreateMissing.scan, hn, hm]
    rw [ih (NamesPresent_tail hex), hn]
    by_cases h : n = m
    · subst h; simp [hm]
    · have h2 : ¬ m = n := fun e => h e.symm
      simp [h, h2, hm]

/-- The calls of the outer loop of `CreateMissing` when all names are present. -/
theorem CreateMissing_loop_eq (l : GHLabeler) (existing : Labels) (repo : String)
    (hex : NamesPresent existing) (ds : Labels) (hds : NamesPresent ds) (t : Trace) :
    (CreateMissing.loop l existing repo ds t).panicked = false ∧
    (CreateMissing.loop l existing repo ds t).calls
      = t.calls ++ (ds.filter fun d => decide (∀ e ∈ existing, e.Name ≠ d.Name)).map
          (Call.CreateLabel l.Config.Owner repo) := by
  induction ds generalizing t with
  | nil => simp [CreateMissing.loop, Outcome.panicked, Outcome.calls, Outcome.trace]
  | cons d rest ih =>
    have hd := hds d (List.mem_cons_self _ _)
    rw [CreateMissing.loop, CreateMissing_scan_eq d hd existing hex true]
    by_cases h : ∀ e ∈ existing, e.Name ≠ d.Name
    · have hdec : decide (∀ e ∈ existing, e.Name ≠ d.Name) = true := decide_eq_true h
      have hf : (List.filter (fun d => decide (∀ e ∈ existing, e.Name ≠ d.Name)) (d :: rest))
          = d :: List.filter (fun d => decide (∀ e ∈ existing, e.Name ≠ d.Name)) rest :=
        List.filter_cons_of_pos hdec
      rw [hf, hdec]
      have := ih (NamesPresent_tail hds) (l.issue (.CreateLabel l.Config.Owner repo d)
        (createErrorLine l.Config.Owner repo) t)
      simpa using this
    · have hdec : decide (∀ e ∈ existing, e.Name ≠ d.Name) = false := decide_eq_false h
      have hf : (List.filter (fun d => decide (∀ e ∈ existing, e.Name ≠ d.Name)) (d :: rest))
          = List.filter (fun d => decide (∀ e ∈ existing, e.Name ≠ d.Name)) rest :=
        List.filter_cons_of_neg (by simp [hdec])
      rw [hf, hdec]
      exact ih (NamesPresent_tail hds) t

/-- With names and colors present the inner loop of `UpdateExisting` never panics and
issues one call for `d` per existing label of the same name and another color. -/
theorem UpdateExisting_inner_eq (l : GHLabeler) (repo : String) (d : Label)
    (hdn : d.Name.isSome = true) (hdc : d.Color.isSome = true)
    (existing : Labels) (hex : WellFormed existing) (t : Trace) :
    (UpdateExisting.inner l repo d existing t).panicked = false ∧
    (UpdateExisting.inner l repo d existing t).calls
      = t.calls ++ (staleFor d existing).map fun _ => editCallOf l.Config.Owner repo d := by
  obtain ⟨n, hn⟩ := Option.isSome_iff_exists.mp hdn
  obtain ⟨c, hc⟩ := Option.isSome_iff_exists.mp hdc
  induction existing generalizing t with
  | nil => simp [UpdateExisting.inner, staleFor, Outcome.panicked, Outcome.calls, Outcome.trace]
  | cons el rest ih =>
    obtain ⟨hen, hec⟩ := hex el (List.mem_cons_self _ _)
    obtain ⟨m, hm⟩ := Option.isSome_iff_exists.mp hen
    obtain ⟨k, hk⟩ := Option.isSome_iff_exists.mp hec
    simp only [UpdateExisting.inner, hn, hm]
    by_cases h : n = m
    · subst h
      simp only [if_true, hc, hk]
      by_cases h2 : c = k
      · subst h2
        have hf : staleFor d (el :: rest) = staleFor d rest := by
          simp [staleFor, List.filter_cons, hn, hm, hc, hk]
        rw [hf]
        simpa using ih (WellFormed_tail hex) t
      · have hf : staleFor d (el :: rest) = el :: staleFor d rest := by
          have h3 : ¬ k = c := fun e => h2 e.symm
          simp [staleFor, List.filter_cons, hn, hm, hc, hk, h3]
        rw [hf]
        have := ih (WellFormed_tail hex) (l.issue (.EditLabel l.Config.Owner repo n d)
          (accessErrorLine l.Config.Owner repo) t)
        simpa [h2, editCallOf, hn] using this
    · have hf : staleFor d (el :: rest) = staleFor d rest := by
        have h3 : ¬ m = n := fun e => h e.symm
        simp [staleFor, List.filter_cons, hn, hm, h3]
      rw [hf]
      simpa [h] using ih (WellFormed_tail hex) t

/-- The calls of the outer loop of `UpdateExisting` when names and colors are present. -/
theorem UpdateExisting_loop_eq (l : GHLabeler) (existing : Labels) (repo : String)
    (hex : WellFormed existing) (ds : Labels) (hds : WellFormed ds) (t : Trace) :
    (UpdateExisting.loop l existing repo ds t).panicked = false ∧
    (UpdateExisting.loop l existing repo ds t).calls
      = t.calls ++ ds.flatMap fun d =>
          (staleFor d existing).map fun _ => editCallOf l.Config.Owner repo d := by
  induction ds generalizing t with
  | nil => simp [UpdateExisting.loop, Outcome.panicked, Outcome.calls, Outcome.trace]
  | cons d rest ih =>
    obtain ⟨hdn, hdc⟩ := hds d (List.mem_cons_self _ _)
    obtain ⟨h1, h2⟩ := UpdateExisting_inner_eq l repo d hdn hdc existing hex t
    rw [UpdateExisting.loop, Outcome_eq_done_of_not_panicked h1]
    simp only [Outcome.andThen]
    obtain ⟨h3, h4⟩ := ih (WellFormed_tail hds) (UpdateExisting.inner l repo d existing t).trace
    refine ⟨h3, ?_⟩
    rw [h4]
    have : (UpdateExisting.inner l repo d existing t).trace.calls
        = t.calls ++ (staleFor d existing).map fun _ => editCallOf l.Config.Owner repo d := h2
    rw [this, List.flatMap_cons, List.append_assoc]

/-- The calls of the inner loop of `UpdateExisting` do not depend on the client or on the
trace so far, and all of them edit the label named as `d` with `d` itself. -/
theorem UpdateExisting_inner_emits (cfg : Config) (repo : String) (d : Label)
    (existing : Labels) :
    ∃ cs p, Emits (fun client t => UpdateExisting.inner ⟨client, cfg⟩ repo d existing t) cs p ∧
      ∀ c ∈ cs, ∃ n, d.Name = some n ∧ c = Call.EditLabel cfg.Owner repo n d := by
  induction existing with
  | nil => exact ⟨[], false, by simpa [UpdateExisting.inner] using Emits_done, by simp⟩
  | cons el rest ih =>
    obtain ⟨cs, p, hE, hK⟩ := ih
    rcases hn : d.Name with _ | n
    · exact ⟨[], true, by simpa [UpdateExisting.inner, hn] using Emits_panic, by simp⟩
    rcases hm : el.Name with _ | m
    · exact ⟨[], true, by simpa [UpdateExisting.inner, hn, hm] using Emits_panic, by simp⟩
    have hK2 : ∀ c ∈ cs, ∃ k, some n = some k ∧ c = Call.EditLabel cfg.Owner repo k d := by
      intro c hc
      obtain ⟨k, hk, rfl⟩ := hK c hc
      exact ⟨k, by rw [← hn, hk], rfl⟩
    by_cases h : n = m
    · rcases hc : d.Color with _ | c
      · exact ⟨[], true, by simpa [UpdateExisting.inner, hn, hm, h, hc] using Emits_panic,
          by simp⟩
      rcases hk : el.Color with _ | k
      · exact ⟨[], true, by simpa [UpdateExisting.inner, hn, hm, h, hc, hk] using Emits_panic,
          by simp⟩
      by_cases h2 : c = k
      · exact ⟨cs, p, by simpa [UpdateExisting.inner, hn, hm, h, hc, hk, h2] using hE, hK2⟩
      · refine ⟨Call.EditLabel cfg.Owner repo n d :: cs, p, ?_, ?_⟩
        · have := Emits_issue hE cfg (Call.EditLabel cfg.Owner repo n d)
            (accessErrorLine cfg.Owner repo)
          simpa [UpdateExisting.inner, hn, hm, h, hc, hk, h2] using this
        · intro x hx
          rcases List.mem_cons.mp hx with rfl | hx
          · exact ⟨n, rfl, rfl⟩
          · exact hK2 x hx
    · exact ⟨cs, p, by simpa [UpdateExisting.inner, hn, hm, h] using hE, hK2⟩

/-- The calls of the outer loop of `UpdateExisting` do not depend on the client or on the
trace so far, and each of them edits a desired label, named by its name, with itself. -/
theorem UpdateExisting_loop_emits (cfg : Config) (existing : Labels) (repo : String)
    (ds : Labels) :
    ∃ cs p, Emits (fun client t => UpdateExisting.loop ⟨client, cfg⟩ existing repo ds t) cs p ∧
      ∀ c ∈ cs, ∃ d ∈ ds, ∃ n, d.Name = some n ∧ c = Call.EditLabel cfg.Owner repo n d := by
  induction ds with
  | nil => exact ⟨[], false, by simpa [UpdateExisting.loop] using Emits_done, by simp⟩
  | cons d rest ih =>
    obtain ⟨cs2, p2, hE2, hK2⟩ := ih
    obtain ⟨cs1, p1, hE1, hK1⟩ := UpdateExisting_inner_emits cfg repo d existing
    refine ⟨cs1 ++ (if p1 then [] else cs2), p1 || p2, ?_, ?_⟩
    · simpa [UpdateExisting.loop] using Emits_andThen hE1 hE2
    · intro c hc
      rcases List.mem_append.mp hc with hc | hc
      · obtain ⟨n, hn, rfl⟩ := hK1 c hc
        exact ⟨d, List.mem_cons_self _ _, n, hn, rfl⟩
      · cases p1 with
        | true => simp at hc
        | false =>
          obtain ⟨x, hx, n, hn, rfl⟩ := hK2 c (by simpa using hc)
          exact ⟨x, List.mem_cons_of_mem _ hx, n, hn, rfl⟩

/-- With all names present the flag scan of `RemoveAbsent` never panics and leaves the
flag set exactly when no desired label has the name of `el`. -/
theorem RemoveAbsent_scan_eq (el : Label) (hl : el.Name.isSome = true)
    (desired : Labels) (hds : NamesPresent desired) (b : Bool) :
    RemoveAbsent.scan el desired b
      = some (b && decide (∀ d ∈ desired, d.Name ≠ el.Name)) := by
  obtain ⟨m, hm⟩ := Option.isSome_iff_exists.mp hl
  induction desired generalizing b with
  | nil => simp [RemoveAbsent.scan]
  | cons d rest ih =>
    obtain ⟨n, hn⟩ := Option.isSome_iff_exists.mp (hds d (List.mem_cons_self _ _))
    simp only [RemoveAbsent.scan, hn, hm]
    rw [ih (NamesPresent_tail hds), hm]
    by_cases h : n = m
    · subst h; simp [hn]
    · simp [h, hn]

/-- The calls of the loop of `RemoveAbsent` when all names are present. -/
theorem RemoveAbsent_loop_eq (l : GHLabeler) (repo : String)
    (hds : NamesPresent l.Config.Labels) (es : Labels) (hes : NamesPresent es) (t : Trace) :
    (RemoveAbsent.loop l repo es t).panicked = false ∧
    (RemoveAbsent.loop l repo es t).calls
      = t.calls ++ (es.filter fun e => decide (∀ d ∈ l.Config.Labels, d.Name ≠ e.Name)).map
          (deleteCallOf l.Config.Owner repo) := by
  induction es generalizing t with
  | nil => simp [RemoveAbsent.loop, Outcome.panicked, Outcome.calls, Outcome.trace]
  | cons e rest ih =>
    have he := hes e (List.mem_cons_self _ _)
    obtain ⟨m, hm⟩ := Option.isSome_iff_exists.mp he
    rw [RemoveAbsent.loop, RemoveAbsent_scan_eq e he l.Config.Labels hds true]
    by_cases h : ∀ d ∈ l.Config.Labels, d.Name ≠ e.Name
    · have hdec : decide (∀ d ∈ l.Config.Labels, d.Name ≠ e.Name) = true := decide_eq_true h
      have hf : (List.filter (fun e => decide (∀ d ∈ l.Config.Labels, d.Name ≠ e.Name))
            (e :: rest))
          = e :: List.filter (fun e => decide (∀ d ∈ l.Config.Labels, d.Name ≠ e.Name)) rest :=
        List.filter_cons_of_pos hdec
      rw [hf, hdec]
      have := ih (NamesPresent_tail hes) (l.issue (.DeleteLabel l.Config.Owner repo m)
        (accessErrorLine l.Config.Owner repo) t)
      simpa [hm, deleteCallOf] using this
    · have hdec : decide (∀ d ∈ l.Config.Labels, d.Name ≠ e.Name) = false := decide_eq_false h
      have hf : (List.filter (fun e => decide (∀ d ∈ l.Config.Labels, d.Name ≠ e.Name))
            (e :: rest))
          = List.filter (fun e => decide (∀ d ∈ l.Config.Labels, d.Name ≠ e.Name)) rest :=
        List.filter_cons_of_neg (by simp [hdec])
      rw [hf, hdec]
      exact ih (NamesPresent_tail hes) t

/-- The calls of the loop of `RemoveAbsent` do not depend on the client or on the trace so
far, and each of them deletes by the name of an existing label. -/
theorem RemoveAbsent_loop_emits (cfg : Config) (repo : String) (es : Labels) :
    ∃ cs p, Emits (fun client t => RemoveAbsent.loop ⟨client, cfg⟩ repo es t) cs p ∧
      ∀ c ∈ cs, ∃ e ∈ es, ∃ m, e.Name = some m ∧ c = Call.DeleteLabel cfg.Owner repo m := by
  induction es with
  | nil => exact ⟨[], false, by simpa [RemoveAbsent.loop] using Emits_done, by simp⟩
  | cons e rest ih =>
    obtain ⟨cs, p, hE, hK⟩ := ih
    have hK2 : ∀ c ∈ cs, ∃ x ∈ e :: rest, ∃ m, x.Name = some m ∧
        c = Call.DeleteLabel cfg.Owner repo m := by
      intro c hc
      obtain ⟨x, hx, m, hm, rfl⟩ := hK c hc
      exact ⟨x, List.mem_cons_of_mem _ hx, m, hm, rfl⟩
    rcases hs : RemoveAbsent.scan e cfg.Labels true with _ | b
    · exact ⟨[], true, by simpa [RemoveAbsent.loop, hs] using Emits_panic, by simp⟩
    · cases b with
      | true =>
        rcases hm : e.Name with _ | m
        · exact ⟨[], true, by simpa [RemoveAbsent.loop, hs, hm] using Emits_panic, by simp⟩
        refine ⟨Call.DeleteLabel cfg.Owner repo m :: cs, p, ?_, ?_⟩
        · simpa [RemoveAbsent.loop, hs, hm] using
            Emits_issue hE cfg (Call.DeleteLabel cfg.Owner repo m) (accessErrorLine cfg.Owner repo)
        · intro c hc
          rcases List.mem_cons.mp hc with rfl | hc
          · exact ⟨e, List.mem_cons_self _ _, m, hm, rfl⟩
          · exact hK2 c hc
      | false =>
        exact ⟨cs, p, by simpa [RemoveAbsent.loop, hs] using hE, hK2⟩

/-- The calls of `SetLabels` in terms of those of its three phases, whatever the lists
hold: a phase runs only if the phases before it returned. -/
theorem SetLabels_emits (cfg : Config) (existing : Labels) (repo : String) :
    ∃ cs us ds p1 p2 p3,
      Emits (fun client t => (GHLabeler.mk client cfg).CreateMissing existing repo t) cs p1 ∧
      Emits (fun client t => (GHLabeler.mk client cfg).UpdateExisting existing repo t) us p2 ∧
      Emits (fun client t => (GHLabeler.mk client cfg).RemoveAbsent existing repo t) ds p3 ∧
      (∀ ra : Bool,
        Emits (fun client t => (GHLabeler.mk client cfg).SetLabels existing repo ra t)
          (cs ++ if p1 then [] else (us ++ if p2 then [] else if ra then ds else []))
          (p1 || (p2 || (ra && p3)))) ∧
      (∀ c ∈ cs, c.phase = 0) ∧ (∀ c ∈ us, c.phase = 1) ∧ (∀ c ∈ ds, c.phase = 2) := by
  obtain ⟨cs, p1, hE1, hK1⟩ := CreateMissing_loop_emits cfg existing repo cfg.Labels
  obtain ⟨us, p2, hE2, hK2⟩ := UpdateExisting_loop_emits cfg existing repo cfg.Labels
  obtain ⟨ds, p3, hE3, hK3⟩ := RemoveAbsent_loop_emits cfg repo existing
  refine ⟨cs, us, ds, p1, p2, p3, hE1, hE2, hE3, ?_, ?_, ?_, ?_⟩
  · intro ra
    cases ra with
    | true =>
      have := Emits_andThen hE1 (Emits_andThen hE2 hE3)
      simpa [GHLabeler.SetLabels, GHLabeler.CreateMissing, GHLabeler.UpdateExisting,
        GHLabeler.RemoveAbsent] using this
    | false =>
      have := Emits_andThen hE1 (Emits_andThen hE2 Emits_done)
      simpa [GHLabeler.SetLabels, GHLabeler.CreateMissing, GHLabeler.UpdateExisting,
        GHLabeler.RemoveAbsent] using this
  · intro c hc; obtain ⟨d, _, rfl⟩ := hK1 c hc; rfl
  · intro c hc; obtain ⟨d, _, n, _, rfl⟩ := hK2 c hc; rfl
  · intro c hc; obtain ⟨e, _, m, _, rfl⟩ := hK3 c hc; rfl

/-- With names and colors present `SetLabels` returns, having issued `plannedCalls`. -/
theorem SetLabels_eq (l : GHLabeler) (existing : Labels) (repo : String) (ra : Bool)
    (hds : WellFormed l.Config.Labels) (hex : WellFormed existing) (t : Trace) :
    (l.SetLabels existing repo ra t).panicked = false ∧
    (l.SetLabels existing repo ra t).calls
      = t.calls ++ plannedCalls l.Config.Owner repo l.Config.Labels existing ra := by
  obtain ⟨a1, a2⟩ := CreateMissing_loop_eq l existing repo (WellFormed_namesPresent hex) l.Config.Labels
    (WellFormed_namesPresent hds) t
  obtain ⟨b1, b2⟩ := UpdateExisting_loop_eq l existing repo hex l.Config.Labels hds
    (CreateMissing.loop l existing repo l.Config.Labels t).trace
  obtain ⟨c1, c2⟩ := RemoveAbsent_loop_eq l repo (WellFormed_namesPresent hds) existing (WellFormed_namesPresent hex)
    (UpdateExisting.loop l existing repo l.Config.Labels
      (CreateMissing.loop l existing repo l.Config.Labels t).trace).trace
  have a2t : (CreateMissing.loop l existing repo l.Config.Labels t).trace.calls = _ := a2
  have b2t : (UpdateExisting.loop l existing repo l.Config.Labels
      (CreateMissing.loop l existing repo l.Config.Labels t).trace).trace.calls = _ := b2
  unfold GHLabeler.SetLabels GHLabeler.CreateMissing GHLabeler.UpdateExisting
    GHLabeler.RemoveAbsent
  rw [Outcome_eq_done_of_not_panicked a1]
  simp only [Outcome.andThen]
  rw [Outcome_eq_done_of_not_panicked b1]
  simp only [Outcome.andThen]
  cases ra with
  | true =>
    refine ⟨by simpa using c1, ?_⟩
    simp only [if_true]
    rw [c2, b2t, a2t]
    simp [plannedCalls, unmatched, List.append_assoc]
  | false =>
    refine ⟨by simp [Outcome.panicked], ?_⟩
    simp only [Bool.false_eq_true, if_false]
    show (UpdateExisting.loop l existing repo l.Config.Labels
      (CreateMissing.loop l existing repo l.Config.Labels t).trace).trace.calls = _
    rw [b2t, a2t]
    simp [plannedCalls, unmatched, List.append_assoc]

/-- The planned edits carry `d` once per occurrence of `d` in the desired list and per
existing label of the same name and another color. -/
theorem count_editCalls (owner repo : String) (existing : Labels) (d : Label) (ds : Labels) :
    (ds.flatMap fun x => (staleFor x existing).map fun _ => editCallOf owner repo x).count
        (editCallOf owner repo d)
      = ds.count d * (staleFor d existing).length := by
  induction ds with
  | nil => simp
  | cons x rest ih =>
    rw [List.flatMap_cons, List.count_append, ih, List.count_cons]
    by_cases h : x = d
    · subst h
      have : ((staleFor x existing).map fun _ => editCallOf owner repo x).count
          (editCallOf owner repo x) = (staleFor x existing).length := by
        rw [List.map_const', List.count_replicate_self]
      rw [this]
      simp [Nat.add_mul, Nat.add_comm]
    · have : ((staleFor x existing).map fun _ => editCallOf owner repo x).count
          (editCallOf owner repo d) = 0 := by
        apply List.count_eq_zero_of_not_mem
        intro hmem
        obtain ⟨_, _, he⟩ := List.mem_map.mp hmem
        apply h
        simp only [editCallOf] at he
        injection he
      rw [this]
      simp [h]

/-- In a list with unique names the name of a member is carried exactly once. -/
theorem countP_name_of_unique (ls : Labels) (hu : UniqueNames ls) (e : Label) (he : e ∈ ls) :
    ls.countP (fun x => decide (x.Name = e.Name)) = 1 := by
  induction ls with
  | nil => simp at he
  | cons x rest ih =>
    have hnd : x.Name ∉ rest.map (·.Name) ∧ (rest.map (·.Name)).Nodup := by
      simpa [UniqueNames] using hu
    rcases List.mem_cons.mp he with rfl | hmem
    · have hz : rest.countP (fun y => decide (y.Name = e.Name)) = 0 := by
        apply List.countP_eq_zero.mpr
        intro y hy
        have : y.Name ≠ e.Name := fun h => hnd.1 (h ▸ List.mem_map_of_mem _ hy)
        simpa using this
      rw [List.countP_cons_of_pos _ _ (by simp), hz]
    · have hne : ¬ x.Name = e.Name := fun h => hnd.1 (h ▸ List.mem_map_of_mem _ hmem)
      rw [List.countP_cons_of_neg _ _ (by simpa using hne)]
      exact ih hnd.2 hmem

/-- Among the existing labels that no desired label matches, a name of a list with unique
names is carried exactly once. -/
theorem countP_name_unmatched (desired existing : Labels) (hu : UniqueNames existing)
    (e : Label) (he : e ∈ existing) (habs : ∀ d ∈ desired, d.Name ≠ e.Name) :
    (unmatched desired existing).countP (fun x => decide (x.Name = e.Name)) = 1 := by
  have h1 : (unmatched desired existing).countP (fun x => decide (x.Name = e.Name))
      = existing.countP (fun x => decide (x.Name = e.Name)) := by
    rw [unmatched, List.countP_filter]
    apply List.countP_congr
    intro x _
    constructor
    · intro h; simp at h; simpa using h.1
    · intro h
      have hx : x.Name = e.Name := by simpa using h
      simp only [Bool.and_eq_true, decide_eq_true_eq]
      exact ⟨hx, by rw [hx]; exact habs⟩
  rw [h1]
  exact countP_name_of_unique existing hu e he

/-- The planned calls that delete are the delete calls of the existing labels that no
desired label matches. -/
theorem plannedCalls_filter_delete (owner repo : String) (desired existing : Labels) :
    (plannedCalls owner repo desired existing true).filter Call.isDelete
      = (unmatched desired existing).map (deleteCallOf owner repo) := by
  have ha : ((unmatched existing desired).map (Call.CreateLabel owner repo)).filter Call.isDelete
      = [] := by
    rw [List.filter_eq_nil_iff]
    intro c hc
    obtain ⟨d, _, rfl⟩ := List.mem_map.mp hc
    simp [Call.isDelete, Call.phase]
  have hb : (desired.flatMap fun d =>
      (staleFor d existing).map fun _ => editCallOf owner repo d).filter Call.isDelete = [] := by
    rw [List.filter_eq_nil_iff]
    intro c hc
    obtain ⟨d, _, hc2⟩ := List.mem_flatMap.mp hc
    obtain ⟨_, _, rfl⟩ := List.mem_map.mp hc2
    simp [Call.isDelete, Call.phase, editCallOf]
  have hc : ((unmatched desired existing).map (deleteCallOf owner repo)).filter Call.isDelete
      = (unmatched desired existing).map (deleteCallOf owner repo) := by
    rw [List.filter_eq_self]
    intro c hc
    obtain ⟨e, _, rfl⟩ := List.mem_map.mp hc
    simp [Call.isDelete, Call.phase, deleteCallOf]
  simp only [plannedCalls, if_true, List.filter_append, ha, hb, hc, List.nil_append]

/-- The calls of `UpdateExisting` when names and colors are present. -/
theorem UpdateExisting_calls_eq (l : GHLabeler) (existing : Labels) (repo : String)
    (hds : WellFormed l.Config.Labels) (hex : WellFormed existing) :
    (l.UpdateExisting existing repo Trace.empty).calls
      = l.Config.Labels.flatMap fun d =>
          (staleFor d existing).map fun _ => editCallOf l.Config.Owner repo d := by
  rw [GHLabeler.UpdateExisting,
    (UpdateExisting_loop_eq l existing repo hex l.Config.Labels hds Trace.empty).2]
  simp [Trace.empty]

/-- The number of edit calls of `UpdateExisting` that carry `d`. -/
theorem UpdateExisting_calls_count (l : GHLabeler) (existing : Labels) (repo : String)
    (hds : WellFormed l.Config.Labels) (hex : WellFormed existing)
    (d : Label) (n : String) (hn : d.Name = some n) :
    (l.UpdateExisting existing repo Trace.empty).calls.count
        (Call.EditLabel l.Config.Owner repo n d)
      = l.Config.Labels.count d
        * existing.countP fun e => decide (e.Name = d.Name) && decide (e.Color ≠ d.Color) := by
  have := count_editCalls l.Config.Owner repo existing d l.Config.Labels
  rw [UpdateExisting_calls_eq l existing repo hds hex]
  simpa [editCallOf, hn, staleFor, List.countP_eq_length_filter] using this

/-- The planned calls are none when every desired name exists, every name-matched pair
agrees in color and (with `removeAbsent`) every existing name is desired. -/
theorem plannedCalls_eq_nil (owner repo : String) (desired existing : Labels) (ra : Bool)
    (h1 : ∀ d ∈ desired, ∃ e ∈ existing, e.Name = d.Name)
    (h2 : ra = true → ∀ e ∈ existing, ∃ d ∈ desired, d.Name = e.Name)
    (h3 : ∀ d ∈ desired, ∀ e ∈ existing, e.Name = d.Name → e.Color = d.Color) :
    plannedCalls owner repo desired existing ra = [] := by
  have ha : unmatched existing desired = [] := by
    rw [unmatched, List.filter_eq_nil_iff]
    intro d hd
    obtain ⟨e, he, hne⟩ := h1 d hd
    simp only [decide_eq_true_eq]
    exact fun h => h e he hne
  have hb : (desired.flatMap fun d =>
      (staleFor d existing).map fun _ => editCallOf owner repo d) = [] := by
    rw [List.flatMap_eq_nil_iff]
    intro d hd
    have : staleFor d existing = [] := by
      rw [staleFor, List.filter_eq_nil_iff]
      intro e he
      by_cases hn : e.Name = d.Name
      · simp [h3 d hd e he hn]
      · simp [hn]
    rw [this, List.map_nil]
  have hc : (if ra = true then (unmatched desired existing).map (deleteCallOf owner repo)
      else []) = [] := by
    cases ra with
    | false => simp
    | true =>
      have : unmatched desired existing = [] := by
        rw [unmatched, List.filter_eq_nil_iff]
        intro e he
        obtain ⟨d, hd, hne⟩ := h2 rfl e he
        simp only [decide_eq_true_eq]
        exact fun h => h d hd hne
      simp [this]
  rw [plannedCalls, ha, hb, hc]
  rfl

theorem applyCalls_append (remote : Labels) (a b : List Call) :
    applyCalls remote (a ++ b) = applyCalls (applyCalls remote a) b := by
  simp [applyCalls, List.foldl_append]

/-- Successful creates append their labels to the remote set. -/
theorem applyCalls_creates (owner repo : String) (ls remote : Labels) :
    applyCalls remote (ls.map (Call.CreateLabel owner repo)) = remote ++ ls := by
  induction ls generalizing remote with
  | nil => simp [applyCalls]
  | cons x rest ih =>
    have := ih (remote ++ [x])
    simp only [applyCalls, List.map_cons, List.foldl_cons, applyCall] at this ⊢
    rw [this, List.append_assoc, List.singleton_append]

/-- Successful edits act on every remote label separately. -/
theorem applyCalls_edits (cs : List Call) (hcs : ∀ c ∈ cs, c.phase = 1) (remote : Labels) :
    applyCalls remote cs = remote.map fun x => cs.foldl relabel x := by
  induction cs generalizing remote with
  | nil => simp [applyCalls]
  | cons c rest ih =>
    have hrest : ∀ c ∈ rest, c.phase = 1 := fun x hx => hcs x (List.mem_cons_of_mem _ hx)
    have hc := hcs c (List.mem_cons_self _ _)
    have hstep : applyCall remote c = remote.map fun x => relabel x c := by
      cases c <;> simp [Call.phase] at hc
      simp [applyCall, relabel]
    have := ih hrest (applyCall remote c)
    simp only [applyCalls, List.foldl_cons] at this ⊢
    rw [this, hstep, List.map_map]
    rfl

/-- Successful deletes remove the remote labels that carry one of the deleted names. -/
theorem applyCalls_deletes (owner repo : String) (es remote : Labels) :
    applyCalls remote (es.map (deleteCallOf owner repo))
      = remote.filter fun x => decide (∀ e ∈ es, x.Name ≠ some (e.Name.getD "")) := by
  induction es generalizing remote with
  | nil => simp [applyCalls]
  | cons e rest ih =>
    have := ih (applyCall remote (deleteCallOf owner repo e))
    simp only [applyCalls, List.map_cons, List.foldl_cons] at this ⊢
    rw [this]
    simp only [applyCall, deleteCallOf, List.filter_filter]
    congr 1
    funext x
    simp [Bool.and_comm]

/-- In a list with unique names a label is determined by its name. -/
theorem eq_of_name_eq {ls : Labels} (hu : UniqueNames ls) {a b : Label} (ha : a ∈ ls)
    (hb : b ∈ ls) (h : a.Name = b.Name) : a = b :=
  List.inj_on_of_nodup_map hu ha hb h

/-- Edits that each carry a label of `ds` under its own name keep the name of a remote
label, leave it alone or turn it into a label of `ds`, and do the latter as soon as one of
them is identified by its name. -/
theorem foldl_relabel_spec (owner repo : String) (ds : Labels) (cs : List Call)
    (hcs : ∀ c ∈ cs, ∃ d ∈ ds, ∃ n, d.Name = some n ∧ c = Call.EditLabel owner repo n d)
    (x : Label) :
    (cs.foldl relabel x).Name = x.Name ∧
    (cs.foldl relabel x = x ∨ cs.foldl relabel x ∈ ds) ∧
    ((∃ c ∈ cs, c.target = x.Name) → cs.foldl relabel x ∈ ds) := by
  induction cs generalizing x with
  | nil => simp
  | cons c rest ih =>
    have hrest : ∀ c ∈ rest, ∃ d ∈ ds, ∃ n, d.Name = some n ∧
        c = Call.EditLabel owner repo n d := fun y hy => hcs y (List.mem_cons_of_mem _ hy)
    obtain ⟨d, hd, n, hn, rfl⟩ := hcs _ (List.mem_cons_self _ _)
    rw [List.foldl_cons]
    by_cases hx : x.Name = some n
    · have hstep : relabel x (Call.EditLabel owner repo n d) = d := by simp [relabel, hx]
      rw [hstep]
      obtain ⟨i1, i2, _⟩ := ih hrest d
      have hmem : List.foldl relabel d rest ∈ ds := by
        rcases i2 with h | h
        · rw [h]; exact hd
        · exact h
      exact ⟨by rw [i1, hn, hx], Or.inr hmem, fun _ => hmem⟩
    · have hstep : relabel x (Call.EditLabel owner repo n d) = x := by simp [relabel, hx]
      rw [hstep]
      obtain ⟨i1, i2, i3⟩ := ih hrest x
      refine ⟨i1, i2, ?_⟩
      rintro ⟨c, hc, hct⟩
      rcases List.mem_cons.mp hc with rfl | hc
      · exact absurd hct.symm hx
      · exact i3 ⟨c, hc, hct⟩

/-- The remote set after the creates and edits of a run have been applied: every label
has a name and a color, every desired name is there, every label under a desired name has
the desired color, and every label stems from a desired or an existing label of its name. -/
theorem remote_after_edits (owner repo : String) (ds es : Labels)
    (hds : WellFormed ds) (hes : WellFormed es) (hu : UniqueNames ds) :
    WellFormed (applyCalls es (plannedCalls owner repo ds es false)) ∧
    (∀ d ∈ ds, ∃ y ∈ applyCalls es (plannedCalls owner repo ds es false), y.Name = d.Name) ∧
    (∀ d ∈ ds, ∀ y ∈ applyCalls es (plannedCalls owner repo ds es false),
      y.Name = d.Name → y.Color = d.Color) ∧
    (∀ y ∈ applyCalls es (plannedCalls owner repo ds es false),
      (∃ d ∈ ds, d.Name = y.Name) ∨ (∃ e ∈ unmatched ds es, e.Name = y.Name)) := by
  obtain ⟨cs, hcs⟩ : ∃ cs : List Call, cs = ds.flatMap fun d =>
      (staleFor d es).map fun _ => editCallOf owner repo d := ⟨_, rfl⟩
  have hK : ∀ c ∈ cs, ∃ d ∈ ds, ∃ n, d.Name = some n ∧ c = Call.EditLabel owner repo n d := by
    intro c hc
    rw [hcs] at hc
    obtain ⟨d, hd, hc2⟩ := List.mem_flatMap.mp hc
    obtain ⟨_, _, rfl⟩ := List.mem_map.mp hc2
    obtain ⟨n, hn⟩ := Option.isSome_iff_exists.mp (hds d hd).1
    exact ⟨d, hd, n, hn, by simp [editCallOf, hn]⟩
  have hphase : ∀ c ∈ cs, c.phase = 1 := by
    intro c hc
    obtain ⟨d, _, n, _, rfl⟩ := hK c hc
    rfl
  have hg := foldl_relabel_spec owner repo ds cs hK
  have hrun : applyCalls es (plannedCalls owner repo ds es false)
      = (es ++ unmatched es ds).map fun x => cs.foldl relabel x := by
    rw [plannedCalls, ← hcs]
    simp only [Bool.false_eq_true, if_false, List.append_nil]
    rw [applyCalls_append, applyCalls_creates, applyCalls_edits cs hphase]
  have hsub : ∀ x ∈ unmatched es ds, x ∈ ds := fun x hx => (List.mem_filter.mp hx).1
  have hwf1 : ∀ x ∈ es ++ unmatched es ds, x.Name.isSome = true ∧ x.Color.isSome = true := by
    intro x hx
    rcases List.mem_append.mp hx with h | h
    · exact hes x h
    · exact hds x (hsub x h)
  have hcolor : ∀ d ∈ ds, ∀ x ∈ es ++ unmatched es ds, x.Name = d.Name →
      (cs.foldl relabel x).Color = d.Color := by
    intro d hd x hx hname
    obtain ⟨g1, g2, g3⟩ := hg x
    have hin : cs.foldl relabel x ∈ ds → (cs.foldl relabel x).Color = d.Color := by
      intro hmem
      rw [eq_of_name_eq hu hmem hd (g1.trans hname)]
    rcases g2 with heq | hmem
    · rcases List.mem_append.mp hx with h | h
      · by_cases hc : x.Color = d.Color
        · rw [heq]; exact hc
        · apply hin
          apply g3
          refine ⟨editCallOf owner repo d, ?_, ?_⟩
          · rw [hcs]
            apply List.mem_flatMap.mpr
            refine ⟨d, hd, List.mem_map.mpr ⟨x, ?_, rfl⟩⟩
            exact List.mem_filter.mpr ⟨h, by simp [hname, hc]⟩
          · obtain ⟨n, hn⟩ := Option.isSome_iff_exists.mp (hds d hd).1
            simp [editCallOf, Call.target, hn, hname]
      · rw [heq, eq_of_name_eq hu (hsub x h) hd hname]
    · exact hin hmem
  rw [hrun]
  refine ⟨?_, ?_, ?_, ?_⟩
  · intro y hy
    obtain ⟨x, hx, rfl⟩ := List.mem_map.mp hy
    obtain ⟨_, g2, _⟩ := hg x
    rcases g2 with heq | hmem
    · rw [heq]; exact hwf1 x hx
    · exact hds _ hmem
  · intro d hd
    by_cases h : ∀ e ∈ es, e.Name ≠ d.Name
    · refine ⟨cs.foldl relabel d, List.mem_map.mpr ⟨d, ?_, rfl⟩, (hg d).1⟩
      exact List.mem_append_right _ (List.mem_filter.mpr ⟨hd, by simpa using h⟩)
    · have h2 : ∃ e ∈ es, e.Name = d.Name := by
        by_contra hcon
        exact h fun e he hne => hcon ⟨e, he, hne⟩
      obtain ⟨e, he, hne⟩ := h2
      exact ⟨cs.foldl relabel e, List.mem_map.mpr ⟨e, List.mem_append_left _ he, rfl⟩,
        (hg e).1.trans hne⟩
  · intro d hd y hy hname
    obtain ⟨x, hx, rfl⟩ := List.mem_map.mp hy
    exact hcolor d hd x hx ((hg x).1.symm.trans hname)
  · intro y hy
    obtain ⟨x, hx, rfl⟩ := List.mem_map.mp hy
    rw [(hg x).1]
    rcases List.mem_append.mp hx with h | h
    · by_cases hm : ∀ d ∈ ds, d.Name ≠ x.Name
      · exact Or.inr ⟨x, List.mem_filter.mpr ⟨h, by simpa using hm⟩, rfl⟩
      · left
        by_contra hcon
        exact hm fun d hd hne => hcon ⟨d, hd, hne⟩
    · exact Or.inl ⟨x, hsub x h, rfl⟩

/-- The remote set after all calls of a run have been applied: every label has a name and
a color, every desired name is there, every label under a desired name has the desired
color, and with `removeAbsent` every name is a desired one. -/
theorem remote_after_run (owner repo : String) (ds es : Labels) (ra : Bool)
    (hds : WellFormed ds) (hes : WellFormed es) (hu : UniqueNames ds) :
    WellFormed (applyCalls es (plannedCalls owner repo ds es ra)) ∧
    (∀ d ∈ ds, ∃ y ∈ applyCalls es (plannedCalls owner repo ds es ra), y.Name = d.Name) ∧
    (∀ d ∈ ds, ∀ y ∈ applyCalls es (plannedCalls owner repo ds es ra),
      y.Name = d.Name → y.Color = d.Color) ∧
    (ra = true → ∀ y ∈ applyCalls es (plannedCalls owner repo ds es ra),
      ∃ d ∈ ds, d.Name = y.Name) := by
  obtain ⟨e1, e2, e3, e4⟩ := remote_after_edits owner repo ds es hds hes hu
  cases ra with
  | false => exact ⟨e1, e2, e3, fun h => absurd h (by simp)⟩
  | true =>
    have hsplit : plannedCalls owner repo ds es true
        = plannedCalls owner repo ds es false
          ++ (unmatched ds es).map (deleteCallOf owner repo) := by
      simp [plannedCalls]
    rw [hsplit, applyCalls_append, applyCalls_deletes]
    have hkeep : ∀ d ∈ ds, ∀ y : Label, y.Name = d.Name →
        ∀ e ∈ unmatched ds es, y.Name ≠ some (e.Name.getD "") := by
      intro d hd y hname e he
      obtain ⟨hee, hp⟩ := List.mem_filter.mp he
      obtain ⟨k, hk⟩ := Option.isSome_iff_exists.mp (hes e hee).1
      have hp2 : ∀ x ∈ ds, x.Name ≠ e.Name := by simpa using hp
      rw [hk, Option.getD_some, ← hk, hname]
      exact hp2 d hd
    refine ⟨?_, ?_, ?_, ?_⟩
    · intro y hy
      exact e1 y (List.mem_filter.mp hy).1
    · intro d hd
      obtain ⟨y, hy, hname⟩ := e2 d hd
      exact ⟨y, List.mem_filter.mpr ⟨hy, by simpa using hkeep d hd y hname⟩, hname⟩
    · intro d hd y hy hname
      exact e3 d hd y (List.mem_filter.mp hy).1 hname
    · intro _ y hy
      obtain ⟨hy1, hy2⟩ := List.mem_filter.mp hy
      have hy3 : ∀ e ∈ unmatched ds es, y.Name ≠ some (e.Name.getD "") := by simpa using hy2
      rcases e4 y hy1 with h | ⟨e, he, hname⟩
      · exact h
      · exfalso
        obtain ⟨k, hk⟩ := Option.isSome_iff_exists.mp (hes e (List.mem_filter.mp he).1).1
        apply hy3 e he
        rw [← hname, hk, Option.getD_some]

/-- Against an empty existing list the loop of `CreateMissing` reads no name and creates
every desired label, in order. -/
theorem CreateMissing_loop_nil (l : GHLabeler) (repo : String) (ds : Labels) (t : Trace) :
    (CreateMissing.loop l [] repo ds t).panicked = false ∧
    (CreateMissing.loop l [] repo ds t).calls
      = t.calls ++ ds.map (Call.CreateLabel l.Config.Owner repo) := by
  induction ds generalizing t with
  | nil => simp [CreateMissing.loop, Outcome.panicked, Outcome.calls, Outcome.trace]
  | cons d rest ih =>
    have := ih (l.issue (.CreateLabel l.Config.Owner repo d)
      (createErrorLine l.Config.Owner repo) t)
    simpa [CreateMissing.loop, CreateMissing.scan] using this

/-- Against an empty existing list the loop of `UpdateExisting` does nothing. -/
theorem UpdateExisting_loop_nil (l : GHLabeler) (repo : String) (ds : Labels) (t : Trace) :
    UpdateExisting.loop l [] repo ds t = .done t := by
  induction ds generalizing t with
  | nil => rfl
  | cons d rest ih =>
    simp [UpdateExisting.loop, UpdateExisting.inner, Outcome.andThen, ih]

/-- The scan condition "no label of `other` carries the name of `x`" is a membership test
on the names of `other`. -/
theorem unmatched_eq_membership (other ls : Labels) :
    unmatched other ls = ls.filter fun x => decide (x.Name ∉ other.map (·.Name)) := by
  unfold unmatched
  apply List.filter_congr
  intro x _
  congr 1
  apply propext
  constructor
  · intro h hmem
    obtain ⟨y, hy, hname⟩ := List.mem_map.mp hmem
    exact h y hy hname
  · intro h y hy hname
    exact h (hname ▸ List.mem_map_of_mem _ hy)

/-- The inner loop of `UpdateExisting` reads no absent field when all names are there and
both colors of every name-matched pair are there. -/
theorem UpdateExisting_inner_safe (l : GHLabeler) (repo : String) (d : Label)
    (hdn : d.Name.isSome = true) (es : Labels)
    (hes : ∀ e ∈ es, e.Name.isSome = true ∧
      (e.Name = d.Name → d.Color.isSome = true ∧ e.Color.isSome = true))
    (t : Trace) :
    (UpdateExisting.inner l repo d es t).panicked = false := by
  obtain ⟨n, hn⟩ := Option.isSome_iff_exists.mp hdn
  induction es generalizing t with
  | nil => rfl
  | cons el rest ih =>
    have hrest : ∀ e ∈ rest, e.Name.isSome = true ∧
        (e.Name = d.Name → d.Color.isSome = true ∧ e.Color.isSome = true) :=
      fun e he => hes e (List.mem_cons_of_mem _ he)
    obtain ⟨hen, hcol⟩ := hes el (List.mem_cons_self _ _)
    obtain ⟨m, hm⟩ := Option.isSome_iff_exists.mp hen
    simp only [UpdateExisting.inner, hn, hm]
    by_cases h : n = m
    · obtain ⟨hc1, hc2⟩ := hcol (by rw [hm, hn, h])
      obtain ⟨c, hc⟩ := Option.isSome_iff_exists.mp hc1
      obtain ⟨k, hk⟩ := Option.isSome_iff_exists.mp hc2
      simp only [h, if_true, hc, hk]
      by_cases h2 : c = k
      · simpa [h2] using ih hrest t
      · simpa [h2] using ih hrest _
    · simpa [h] using ih hrest t

/-- The outer loop of `UpdateExisting` reads no absent field under the same condition. -/
theorem UpdateExisting_loop_safe (l : GHLabeler) (existing : Labels) (repo : String)
    (ds : Labels)
    (hds : ∀ d ∈ ds, d.Name.isSome = true ∧ ∀ e ∈ existing, e.Name.isSome = true ∧
      (e.Name = d.Name → d.Color.isSome = true ∧ e.Color.isSome = true))
    (t : Trace) :
    (UpdateExisting.loop l existing repo ds t).panicked = false := by
  induction ds generalizing t with
  | nil => rfl
  | cons d rest ih =>
    obtain ⟨hdn, hes⟩ := hds d (List.mem_cons_self _ _)
    have h1 := UpdateExisting_inner_safe l repo d hdn existing hes t
    rw [UpdateExisting.loop, Outcome_eq_done_of_not_panicked h1]
    exact ih (fun x hx => hds x (List.mem_cons_of_mem _ hx)) _

/-- The flag scan of `CreateMissing` ends with the flag set only if it started set and no
existing label has the name of `label`. -/
theorem CreateMissing_scan_true (label : Label) (existing : Labels) (b : Bool)
    (h : CreateMissing.scan label existing b = some true) :
    b = true ∧ ∀ e ∈ existing, e.Name ≠ label.Name := by
  induction existing generalizing b with
  | nil => simpa [CreateMissing.scan] using h
  | cons el rest ih =>
    rcases hn : label.Name with _ | n
    · simp [CreateMissing.scan, hn] at h
    rcases hm : el.Name with _ | m
    · simp [CreateMissing.scan, hn, hm] at h
    simp only [CreateMissing.scan, hn, hm] at h
    obtain ⟨h1, h2⟩ := ih _ h
    rw [hn] at h2
    by_cases hnm : n = m
    · simp [hnm] at h1
    · rw [if_neg hnm] at h1
      refine ⟨h1, ?_⟩
      intro e he
      rcases List.mem_cons.mp he with rfl | he
      · rw [hm]; exact fun heq => hnm (Option.some.inj heq).symm
      · exact h2 e he

/-- The flag scan of `RemoveAbsent` ends with the flag set only if it started set and no
desired label has the name of `el`. -/
theorem RemoveAbsent_scan_true (el : Label) (desired : Labels) (b : Bool)
    (h : RemoveAbsent.scan el desired b = some true) :
    b = true ∧ ∀ d ∈ desired, d.Name ≠ el.Name := by
  induction desired generalizing b with
  | nil => simpa [RemoveAbsent.scan] using h
  | cons d rest ih =>
    rcases hn : d.Name with _ | n
    · simp [RemoveAbsent.scan, hn] at h
    rcases hm : el.Name with _ | m
    · simp [RemoveAbsent.scan, hn, hm] at h
    simp only [RemoveAbsent.scan, hn, hm] at h
    obtain ⟨h1, h2⟩ := ih _ h
    rw [hm] at h2
    by_cases hnm : n = m
    · simp [hnm] at h1
    · rw [if_neg hnm] at h1
      refine ⟨h1, ?_⟩
      intro x hx
      rcases List.mem_cons.mp hx with rfl | hx
      · rw [hn]; exact fun heq => hnm (Option.some.inj heq)
      · exact h2 x hx

/-- Every call the loop of `CreateMissing` adds creates a desired label whose name no
existing label has; nothing is assumed of the labels. -/
theorem CreateMissing_loop_mem (l : GHLabeler) (existing : Labels) (repo : String)
    (ds : Labels) (t : Trace) (c : Call)
    (hc : c ∈ (CreateMissing.loop l existing repo ds t).calls) :
    c ∈ t.calls ∨ ∃ d ∈ ds, c = Call.CreateLabel l.Config.Owner repo d ∧
      ∀ e ∈ existing, e.Name ≠ d.Name := by
  induction ds generalizing t with
  | nil => exact Or.inl hc
  | cons d rest ih =>
    rw [CreateMissing.loop] at hc
    rcases hs : CreateMissing.scan d existing true with _ | b
    · rw [hs] at hc; exact Or.inl hc
    · rw [hs] at hc
      cases b with
      | true =>
        rcases ih _ hc with h | ⟨x, hx, hcx, hne⟩
        · rw [issue_calls] at h
          rcases List.mem_append.mp h with h | h
          · exact Or.inl h
          · exact Or.inr ⟨d, List.mem_cons_self _ _, List.mem_singleton.mp h,
              (CreateMissing_scan_true d existing true hs).2⟩
        · exact Or.inr ⟨x, List.mem_cons_of_mem _ hx, hcx, hne⟩
      | false =>
        rcases ih _ hc with h | ⟨x, hx, hcx, hne⟩
        · exact Or.inl h
        · exact Or.inr ⟨x, List.mem_cons_of_mem _ hx, hcx, hne⟩

/-- The calls of two statements in sequence are those of the first or those the second adds
to them. -/
theorem andThen_calls_mem (o : Outcome) (f : Trace → Outcome) (c : Call)
    (hc : c ∈ (o.andThen f).calls) : c ∈ o.calls ∨ c ∈ (f o.trace).calls := by
  cases o with
  | done t => exact Or.inr hc
  | panic t => exact Or.inl hc

/-- Every call the inner loop of `UpdateExisting` adds edits the label named as `d`, and
some existing label carries that name; nothing is assumed of the labels. -/
theorem UpdateExisting_inner_mem (l : GHLabeler) (repo : String) (d : Label) (es : Labels)
    (t : Trace) (c : Call) (hc : c ∈ (UpdateExisting.inner l repo d es t).calls) :
    c ∈ t.calls ∨ ∃ n, d.Name = some n ∧ c = Call.EditLabel l.Config.Owner repo n d ∧
      ∃ e ∈ es, e.Name = some n := by
  induction es generalizing t with
  | nil => exact Or.inl hc
  | cons el rest ih =>
    have hlift : (c ∈ t.calls ∨ ∃ n, d.Name = some n ∧
          c = Call.EditLabel l.Config.Owner repo n d ∧ ∃ e ∈ rest, e.Name = some n) →
        c ∈ t.calls ∨ ∃ n, d.Name = some n ∧
          c = Call.EditLabel l.Config.Owner repo n d ∧ ∃ e ∈ el :: rest, e.Name = some n := by
      rintro (h | ⟨n, h1, h2, e, he, h3⟩)
      · exact Or.inl h
      · exact Or.inr ⟨n, h1, h2, e, List.mem_cons_of_mem _ he, h3⟩
    rcases hn : d.Name with _ | n
    · simp only [UpdateExisting.inner, hn] at hc; exact Or.inl hc
    rcases hm : el.Name with _ | m
    · simp only [UpdateExisting.inner, hn, hm] at hc; exact Or.inl hc
    by_cases h : n = m
    · rcases hcd : d.Color with _ | k
      · simp only [UpdateExisting.inner, hn, hm, h, hcd, if_true] at hc; exact Or.inl hc
      rcases hce : el.Color with _ | k2
      · simp only [UpdateExisting.inner, hn, hm, h, hcd, hce, if_true] at hc; exact Or.inl hc
      by_cases h2 : k = k2
      · simp only [UpdateExisting.inner, hn, hm, h, hcd, hce, h2, if_true, ne_eq,
          not_true_eq_false, if_false] at hc
        have := hlift (ih _ hc)
        rwa [hn] at this
      · simp only [UpdateExisting.inner, hn, hm, h, hcd, hce, if_true, ne_eq, h2,
          not_false_eq_true] at hc
        rcases ih _ hc with hin | hnew
        · rw [issue_calls] at hin
          rcases List.mem_append.mp hin with hin | hin
          · exact Or.inl hin
          · refine Or.inr ⟨m, by rw [h], ?_, el, List.mem_cons_self _ _, hm⟩
            rw [List.mem_singleton.mp hin]
        · have := hlift (Or.inr hnew)
          rwa [hn] at this
    · simp only [UpdateExisting.inner, hn, hm, h, if_false] at hc
      have := hlift (ih _ hc)
      rwa [hn] at this

/-- Every call the outer loop of `UpdateExisting` adds edits a desired label under its own
name, and some existing label carries that name. -/
theorem UpdateExisting_loop_mem (l : GHLabeler) (existing : Labels) (repo : String)
    (ds : Labels) (t : Trace) (c : Call)
    (hc : c ∈ (UpdateExisting.loop l existing repo ds t).calls) :
    c ∈ t.calls ∨ ∃ d ∈ ds, ∃ n, d.Name = some n ∧
      c = Call.EditLabel l.Config.Owner repo n d ∧ ∃ e ∈ existing, e.Name = some n := by
  induction ds generalizing t with
  | nil => exact Or.inl hc
  | cons d rest ih =>
    rw [UpdateExisting.loop] at hc
    have hinner : ∀ x, x ∈ (UpdateExisting.inner l repo d existing t).calls →
        x = c → c ∈ t.calls ∨ ∃ y ∈ d :: rest, ∃ n, y.Name = some n ∧
          c = Call.EditLabel l.Config.Owner repo n y ∧ ∃ e ∈ existing, e.Name = some n := by
      intro x hx hxc
      subst hxc
      rcases UpdateExisting_inner_mem l repo d existing t x hx with h | ⟨n, h1, h2, h3⟩
      · exact Or.inl h
      · exact Or.inr ⟨d, List.mem_cons_self _ _, n, h1, h2, h3⟩
    rcases andThen_calls_mem _ _ c hc with h | h
    · exact hinner c h rfl
    · rcases ih _ h with h2 | ⟨y, hy, n, h3, h4, h5⟩
      · exact hinner c h2 rfl
      · exact Or.inr ⟨y, List.mem_cons_of_mem _ hy, n, h3, h4, h5⟩

/-- Every call the loop of `RemoveAbsent` adds deletes by the name of an existing label
that no desired label carries; nothing is assumed of the labels. -/
theorem RemoveAbsent_loop_mem (l : GHLabeler) (repo : String) (es : Labels) (t : Trace)
    (c : Call) (hc : c ∈ (RemoveAbsent.loop l repo es t).calls) :
    c ∈ t.calls ∨ ∃ e ∈ es, ∃ m, e.Name = some m ∧
      c = Call.DeleteLabel l.Config.Owner repo m ∧
      ∀ d ∈ l.Config.Labels, d.Name ≠ some m := by
  induction es generalizing t with
  | nil => exact Or.inl hc
  | cons e rest ih =>
    have hlift : (c ∈ t.calls ∨ ∃ x ∈ rest, ∃ m, x.Name = some m ∧
          c = Call.DeleteLabel l.Config.Owner repo m ∧
          ∀ d ∈ l.Config.Labels, d.Name ≠ some m) →
        c ∈ t.calls ∨ ∃ x ∈ e :: rest, ∃ m, x.Name = some m ∧
          c = Call.DeleteLabel l.Config.Owner repo m ∧
          ∀ d ∈ l.Config.Labels, d.Name ≠ some m := by
      rintro (h | ⟨x, hx, m, h1, h2, h3⟩)
      · exact Or.inl h
      · exact Or.inr ⟨x, List.mem_cons_of_mem _ hx, m, h1, h2, h3⟩
    rw [RemoveAbsent.loop] at hc
    rcases hs : RemoveAbsent.scan e l.Config.Labels true with _ | b
    · rw [hs] at hc; exact Or.inl hc
    · rw [hs] at hc
      cases b with
      | true =>
        rcases hm : e.Name with _ | m
        · simp only [hm] at hc; exact Or.inl hc
        simp only [hm] at hc
        rcases ih _ hc with h | hnew
        · rw [issue_calls] at h
          rcases List.mem_append.mp h with h | h
          · exact Or.inl h
          · have hno := (RemoveAbsent_scan_true e l.Config.Labels true hs).2
            rw [hm] at hno
            exact Or.inr ⟨e, List.mem_cons_self _ _, m, hm, List.mem_singleton.mp h, hno⟩
        · exact hlift (Or.inr hnew)
      | false => exact hlift (ih _ hc)

/-- What a call of a `SetLabels` run can be, whatever the lists hold: the create of a
desired label of a name that is not existing, the edit of a desired label under its name,
which is existing, or (with `removeAbsent`) the delete of an existing name that is not
desired. -/
theorem SetLabels_mem (l : GHLabeler) (existing : Labels) (repo : String) (ra : Bool)
    (c : Call) (hc : c ∈ (l.SetLabels existing repo ra Trace.empty).calls) :
    (∃ d ∈ l.Config.Labels, c = Call.CreateLabel l.Config.Owner repo d ∧
      ∀ e ∈ existing, e.Name ≠ d.Name) ∨
    (∃ d ∈ l.Config.Labels, ∃ n, d.Name = some n ∧
      c = Call.EditLabel l.Config.Owner repo n d ∧ ∃ e ∈ existing, e.Name = some n) ∨
    (ra = true ∧ ∃ e ∈ existing, ∃ m, e.Name = some m ∧
      c = Call.DeleteLabel l.Config.Owner repo m ∧
      ∀ d ∈ l.Config.Labels, d.Name ≠ some m) := by
  have hcm : ∀ x, x ∈ (CreateMissing.loop l existing repo l.Config.Labels Trace.empty).calls →
      ∃ d ∈ l.Config.Labels, x = Call.CreateLabel l.Config.Owner repo d ∧
        ∀ e ∈ existing, e.Name ≠ d.Name := by
    intro x hx
    rcases CreateMissing_loop_mem l existing repo _ _ x hx with h | h
    · simp [Trace.empty] at h
    · exact h
  unfold GHLabeler.SetLabels GHLabeler.CreateMissing GHLabeler.UpdateExisting
    GHLabeler.RemoveAbsent at hc
  rcases andThen_calls_mem _ _ c hc with h | h
  · exact Or.inl (hcm c h)
  rcases andThen_calls_mem _ _ c h with h | h
  · rcases UpdateExisting_loop_mem l existing repo _ _ c h with h2 | h2
    · exact Or.inl (hcm c h2)
    · exact Or.inr (Or.inl h2)
  have hue : c ∈ (UpdateExisting.loop l existing repo l.Config.Labels
      (CreateMissing.loop l existing repo l.Config.Labels Trace.empty).trace).trace.calls →
      (∃ d ∈ l.Config.Labels, c = Call.CreateLabel l.Config.Owner repo d ∧
        ∀ e ∈ existing, e.Name ≠ d.Name) ∨
      (∃ d ∈ l.Config.Labels, ∃ n, d.Name = some n ∧
        c = Call.EditLabel l.Config.Owner repo n d ∧ ∃ e ∈ existing, e.Name = some n) := by
    intro h3
    rcases UpdateExisting_loop_mem l existing repo _ _ c h3 with h2 | h2
    · exact Or.inl (hcm c h2)
    · exact Or.inr h2
  cases ra with
  | false =>
    rcases hue h with h2 | h2
    · exact Or.inl h2
    · exact Or.inr (Or.inl h2)
  | true =>
    simp only [if_true] at h
    rcases RemoveAbsent_loop_mem l repo existing _ c h with h2 | h2
    · rcases hue h2 with h3 | h3
      · exact Or.inl h3
      · exact Or.inr (Or.inl h3)
    · exact Or.inr (Or.inr ⟨rfl, h2⟩)

/-- Every call of a `SetLabels` run, by phase: a create is of a name that is not existing,
an edit of a name that is desired and existing, a delete of a name that is existing and
not desired. -/
theorem SetLabels_kind (l : GHLabeler) (existing : Labels) (repo : String) (ra : Bool)
    (c : Call) (hc : c ∈ (l.SetLabels existing repo ra Trace.empty).calls) :
    (c.phase = 0 ∧ ∀ e ∈ existing, e.Name ≠ c.target) ∨
    (c.phase = 1 ∧ (∃ d ∈ l.Config.Labels, d.Name = c.target) ∧
      ∃ e ∈ existing, e.Name = c.target) ∨
    (c.phase = 2 ∧ (∃ e ∈ existing, e.Name = c.target) ∧
      ∀ d ∈ l.Config.Labels, d.Name ≠ c.target) := by
  rcases SetLabels_mem l existing repo ra c hc with
    ⟨d, _, rfl, hne⟩ | ⟨d, hd, n, hn, rfl, e, he, hen⟩ | ⟨_, e, he, m, hm, rfl, hno⟩
  · exact Or.inl ⟨rfl, hne⟩
  · exact Or.inr (Or.inl ⟨rfl, ⟨d, hd, hn⟩, e, he, hen⟩)
  · exact Or.inr (Or.inr ⟨rfl, ⟨e, he, hm⟩, hno⟩)

/-- Two calls of one `SetLabels` run that belong to different phases are about different
names. -/
theorem SetLabels_cross_phase (l : GHLabeler) (existing : Labels) (repo : String) (ra : Bool) :
    ∀ c1 ∈ (l.SetLabels existing repo ra Trace.empty).calls,
    ∀ c2 ∈ (l.SetLabels existing repo ra Trace.empty).calls,
      c1.phase ≠ c2.phase → c1.target ≠ c2.target := by
  intro c1 h1 c2 h2 hne heq
  rcases SetLabels_kind l existing repo ra c1 h1 with
      ⟨p1, a⟩ | ⟨p1, ⟨d1, hd1, hdn1⟩, e1, he1, hen1⟩ | ⟨p1, ⟨e1, he1, hen1⟩, a⟩ <;>
    rcases SetLabels_kind l existing repo ra c2 h2 with
      ⟨p2, b⟩ | ⟨p2, ⟨d2, hd2, hdn2⟩, e2, he2, hen2⟩ | ⟨p2, ⟨e2, he2, hen2⟩, b⟩
  · exact hne (p1.trans p2.symm)
  · exact a e2 he2 (hen2.trans heq.symm)
  · exact a e2 he2 (hen2.trans heq.symm)
  · exact b e1 he1 (hen1.trans heq)
  · exact hne (p1.trans p2.symm)
  · exact b d1 hd1 (hdn1.trans heq)
  · exact b e1 he1 (hen1.trans heq)
  · exact a d2 hd2 (hdn2.trans heq.symm)
  · exact hne (p1.trans p2.symm)

/-- In a list with unique names any two labels at different places differ in name. -/
theorem names_pairwise {ls : Labels} (hu : UniqueNames ls) :
    ls.Pairwise fun a b => a.Name ≠ b.Name :=
  List.pairwise_map.mp hu

/-- With unique existing names a desired label has at most one existing label of its name,
so it meets one of another color or none. -/
theorem staleFor_length (d : Label) (es : Labels) (hu : UniqueNames es) :
    (staleFor d es).length
      = if ∃ e ∈ es, e.Name = d.Name ∧ e.Color ≠ d.Color then 1 else 0 := by
  by_cases h : ∃ e ∈ es, e.Name = d.Name ∧ e.Color ≠ d.Color
  · rw [if_pos h]
    obtain ⟨e, he, hn, hc⟩ := h
    have hle : (staleFor d es).length ≤ 1 := by
      rw [staleFor, ← List.countP_eq_length_filter, ← countP_name_of_unique es hu e he]
      apply List.countP_mono_left
      intro x _ hx
      simp only [Bool.and_eq_true, decide_eq_true_eq] at hx
      simpa [hn] using hx.1
    have hpos : 0 < (staleFor d es).length :=
      List.length_pos_of_mem (List.mem_filter.mpr ⟨he, by simp [hn, hc]⟩)
    omega
  · rw [if_neg h]
    have : staleFor d es = [] := by
      rw [staleFor, List.filter_eq_nil_iff]
      intro e he hp
      simp only [Bool.and_eq_true, decide_eq_true_eq] at hp
      exact h ⟨e, he, hp.1, hp.2⟩
    rw [this]; rfl

/-- A value is taken at most once along a list whose members differ pairwise in it. -/
theorem countP_le_one_of_pairwise {α β : Type} [DecidableEq β] (f : α → β) (v : β)
    (l : List α) (h : l.Pairwise fun a b => f a ≠ f b) :
    l.countP (fun x => decide (f x = v)) ≤ 1 := by
  induction l with
  | nil => simp
  | cons x rest ih =>
    obtain ⟨h1, h2⟩ := List.pairwise_cons.mp h
    by_cases hx : f x = v
    · have hz : rest.countP (fun y => decide (f y = v)) = 0 := by
        apply List.countP_eq_zero.mpr
        intro y hy
        have := h1 y hy
        simp only [decide_eq_true_eq]
        exact fun hyv => this (hx.trans hyv.symm)
      rw [List.countP_cons_of_pos _ _ (by simpa using hx), hz]
    · rw [List.countP_cons_of_neg _ _ (by simpa using hx)]
      exact ih h2

/-- Two conditions that exclude each other hold, together, of no more members than the
list has. -/
theorem countP_add_le_length {α : Type} (p q : α → Bool) (l : List α)
    (h : ∀ x ∈ l, p x = true → q x = false) :
    l.countP p + l.countP q ≤ l.length := by
  induction l with
  | nil => simp
  | cons x rest ih =>
    have ih2 := ih fun y hy => h y (List.mem_cons_of_mem _ hy)
    have hx := h x (List.mem_cons_self _ _)
    simp only [List.countP_cons, List.length_cons]
    cases hp : p x
    · cases hq : q x <;> simp <;> omega
    · rw [hx hp]; simp; omega

/-- The planned calls counted by phase. -/
theorem plannedCalls_counts (owner repo : String) (ds es : Labels) (ra : Bool) :
    (plannedCalls owner repo ds es ra).countP Call.isCreate = (unmatched es ds).length ∧
    (plannedCalls owner repo ds es ra).countP Call.isEdit
      = (ds.flatMap fun d => (staleFor d es).map fun _ => editCallOf owner repo d).length ∧
    (plannedCalls owner repo ds es ra).countP Call.isDelete
      = if ra then (unmatched ds es).length else 0 := by
  have hA : ∀ c ∈ (unmatched es ds).map (Call.CreateLabel owner repo), c.phase = 0 := by
    intro c hc; obtain ⟨d, _, rfl⟩ := List.mem_map.mp hc; rfl
  have hB : ∀ c ∈ (ds.flatMap fun d => (staleFor d es).map fun _ => editCallOf owner repo d),
      c.phase = 1 := by
    intro c hc
    obtain ⟨d, _, hc2⟩ := List.mem_flatMap.mp hc
    obtain ⟨_, _, rfl⟩ := List.mem_map.mp hc2
    rfl
  have hC : ∀ c ∈ (if ra = true then (unmatched ds es).map (deleteCallOf owner repo) else []),
      c.phase = 2 := by
    intro c hc
    cases ra with
    | false => simp at hc
    | true =>
      simp only [if_true] at hc
      obtain ⟨e, _, rfl⟩ := List.mem_map.mp hc
      rfl
  have full : ∀ (p : Call → Bool) (xs : List Call), (∀ c ∈ xs, p c = true) →
      xs.countP p = xs.length := fun p xs h => List.countP_eq_length.mpr h
  have none : ∀ (p : Call → Bool) (xs : List Call), (∀ c ∈ xs, p c = false) →
      xs.countP p = 0 := fun p xs h =>
    List.countP_eq_zero.mpr fun c hc => by simp [h c hc]
  simp only [plannedCalls, List.countP_append]
  refine ⟨?_, ?_, ?_⟩
  · rw [full _ _ (fun c hc => by simp [Call.isCreate, hA c hc]),
      none _ _ (fun c hc => by simp [Call.isCreate, hB c hc]),
      none _ _ (fun c hc => by simp [Call.isCreate, hC c hc])]
    simp
  · rw [none _ _ (fun c hc => by simp [Call.isEdit, hA c hc]),
      full _ _ (fun c hc => by simp [Call.isEdit, hB c hc]),
      none _ _ (fun c hc => by simp [Call.isEdit, hC c hc])]
    simp
  · rw [none _ _ (fun c hc => by simp [Call.isDelete, hA c hc]),
      none _ _ (fun c hc => by simp [Call.isDelete, hB c hc]),
      full _ _ (fun c hc => by simp [Call.isDelete, hC c hc])]
    cases ra <;> simp

/-- With unique existing names the planned edits are one per desired label that meets an
existing label of its name and another color. -/
theorem editCalls_length (owner repo : String) (ds es : Labels) (hu : UniqueNames es) :
    (ds.flatMap fun d => (staleFor d es).map fun _ => editCallOf owner repo d).length
      = ds.countP fun d => decide (∃ e ∈ es, e.Name = d.Name ∧ e.Color ≠ d.Color) := by
  induction ds with
  | nil => rfl
  | cons d rest ih =>
    rw [List.flatMap_cons, List.length_append, ih, List.length_map, staleFor_length d es hu,
      List.countP_cons]
    by_cases h : ∃ e ∈ es, e.Name = d.Name ∧ e.Color ≠ d.Color
    · simp only [h, if_true, decide_True]; omega
    · simp only [h, if_false, decide_False]; simp

/-- With names present and unique within each list, any two planned calls of one phase
are about different names. -/
theorem plannedCalls_within_phase (owner repo : String) (ds es : Labels) (ra : Bool)
    (hds : WellFormed ds) (hes : WellFormed es) (hud : UniqueNames ds)
    (hue : UniqueNames es) :
    ((unmatched es ds).map (Call.CreateLabel owner repo)).Pairwise
      (fun a b => a.target ≠ b.target) ∧
    (ds.flatMap fun d => (staleFor d es).map fun _ => editCallOf owner repo d).Pairwise
      (fun a b => a.target ≠ b.target) ∧
    (if ra = true then (unmatched ds es).map (deleteCallOf owner repo) else []).Pairwise
      (fun a b => a.target ≠ b.target) := by
  have htd : ∀ d ∈ ds, (editCallOf owner repo d).target = d.Name := by
    intro d hd
    obtain ⟨n, hn⟩ := Option.isSome_iff_exists.mp (hds d hd).1
    simp [editCallOf, Call.target, hn]
  have hte : ∀ e ∈ es, (deleteCallOf owner repo e).target = e.Name := by
    intro e he
    obtain ⟨n, hn⟩ := Option.isSome_iff_exists.mp (hes e he).1
    simp [deleteCallOf, Call.target, hn]
  refine ⟨?_, ?_, ?_⟩
  · rw [List.pairwise_map]
    exact (names_pairwise hud).filter _
  · rw [List.pairwise_flatMap]
    constructor
    · intro d _
      have hlen := staleFor_length d es hue
      rcases hs : staleFor d es with _ | ⟨x, _ | ⟨y, rest⟩⟩
      · simp
      · simp
      · rw [hs] at hlen
        by_cases h : ∃ e ∈ es, e.Name = d.Name ∧ e.Color ≠ d.Color
        · rw [if_pos h] at hlen; simp at hlen
        · rw [if_neg h] at hlen; simp at hlen
    · apply List.Pairwise.imp_of_mem _ (names_pairwise hud)
      intro a b ha hb hab x hx y hy
      obtain ⟨_, _, rfl⟩ := List.mem_map.mp hx
      obtain ⟨_, _, rfl⟩ := List.mem_map.mp hy
      rw [htd a ha, htd b hb]
      exact hab
  · cases ra with
    | false => simp
    | true =>
      simp only [if_true]
      rw [List.pairwise_map]
      have hsub : (unmatched ds es).Pairwise fun a b => a.Name ≠ b.Name :=
        (names_pairwise hue).filter _
      apply List.Pairwise.imp_of_mem _ hsub
      intro a b ha hb hab
      rw [hte a (List.mem_filter.mp ha).1, hte b (List.mem_filter.mp hb).1]
      exact hab

/-- Calls laid out in three runs, pairwise apart in name within each run and across any two
phases, are pairwise apart in name. -/
theorem pairwise_of_three (xs ys zs : List Call)
    (hx : xs.Pairwise fun a b => a.target ≠ b.target)
    (hy : ys.Pairwise fun a b => a.target ≠ b.target)
    (hz : zs.Pairwise fun a b => a.target ≠ b.target)
    (px : ∀ c ∈ xs, c.phase = 0) (py : ∀ c ∈ ys, c.phase = 1) (pz : ∀ c ∈ zs, c.phase = 2)
    (hcross : ∀ c1 ∈ xs ++ ys ++ zs, ∀ c2 ∈ xs ++ ys ++ zs,
      c1.phase ≠ c2.phase → c1.target ≠ c2.target) :
    (xs ++ ys ++ zs).Pairwise fun a b => a.target ≠ b.target := by
  have mx : ∀ c ∈ xs, c ∈ xs ++ ys ++ zs := fun c h =>
    List.mem_append_left _ (List.mem_append_left _ h)
  have my : ∀ c ∈ ys, c ∈ xs ++ ys ++ zs := fun c h =>
    List.mem_append_left _ (List.mem_append_right _ h)
  have mz : ∀ c ∈ zs, c ∈ xs ++ ys ++ zs := fun c h => List.mem_append_right _ h
  refine List.pairwise_append.mpr ⟨List.pairwise_append.mpr ⟨hx, hy, ?_⟩, hz, ?_⟩
  · intro a ha b hb
    exact hcross a (mx a ha) b (my b hb) (by rw [px a ha, py b hb]; decide)
  · intro a ha b hb
    rcases List.mem_append.mp ha with h | h
    · exact hcross a (mx a h) b (mz b hb) (by rw [px a h, pz b hb]; decide)
    · exact hcross a (my a h) b (mz b hb) (by rw [py a h, pz b hb]; decide)

/-- The phases of the three runs of planned calls. -/
theorem plannedCalls_phases (owner repo : String) (ds es : Labels) (ra : Bool) :
    (∀ c ∈ (unmatched es ds).map (Call.CreateLabel owner repo), c.phase = 0) ∧
    (∀ c ∈ (ds.flatMap fun d => (staleFor d es).map fun _ => editCallOf owner repo d),
      c.phase = 1) ∧
    (∀ c ∈ (if ra = true then (unmatched ds es).map (deleteCallOf owner repo) else []),
      c.phase = 2) := by
  refine ⟨?_, ?_, ?_⟩
  · intro c hc; obtain ⟨d, _, rfl⟩ := List.mem_map.mp hc; rfl
  · intro c hc
    obtain ⟨d, _, hc2⟩ := List.mem_flatMap.mp hc
    obtain ⟨_, _, rfl⟩ := List.mem_map.mp hc2
    rfl
  · intro c hc
    cases ra with
    | false => simp at hc
    | true =>
      simp only [if_true] at hc
      obtain ⟨e, _, rfl⟩ := List.mem_map.mp hc
      rfl

/-- Against an empty existing list `SetLabels` returns, having added one create call per
desired label to the trace, whatever the labels hold and whatever was issued before. -/
theorem SetLabels_on_nil (l : GHLabeler) (repo : String) (ra : Bool) (t : Trace) :
    (l.SetLabels [] repo ra t).panicked = false ∧
    (l.SetLabels [] repo ra t).calls
      = t.calls ++ l.Config.Labels.map (Call.CreateLabel l.Config.Owner repo) := by
  obtain ⟨a1, a2⟩ := CreateMissing_loop_nil l repo l.Config.Labels t
  unfold GHLabeler.SetLabels GHLabeler.CreateMissing GHLabeler.UpdateExisting
    GHLabeler.RemoveAbsent
  rw [Outcome_eq_done_of_not_panicked a1]
  simp only [Outcome.andThen, UpdateExisting_loop_nil, RemoveAbsent.loop, ite_self]
  exact ⟨rfl, a2⟩

/-- The example listing hands back no label with its error. -/
theorem exampleListing_nilOnError : NilOnError exampleListing := by
  intro owner repo h
  unfold exampleListing at h ⊢
  by_cases hr : repo = "gone"
  · simp [hr]
  · simp [hr] at h

/-! ## The claims -/

/-- C1 (create completeness). When every label has a name, `CreateMissing` returns, issues
only `CreateLabel` calls carrying desired labels, and the number of create calls carrying a
label `d` is the number of times `d` occurs in the desired list if no existing label has
the name of `d` (so exactly one for a `d` listed once), and zero otherwise; hence a create
call for a desired `d` is issued if and only if no existing label has its name.  Colors
play no part in the condition. -/
theorem CreateMissing_create_completeness (l : GHLabeler) (existing : Labels) (repo : String)
    (hds : NamesPresent l.Config.Labels) (hex : NamesPresent existing) :
    (l.CreateMissing existing repo Trace.empty).panicked = false ∧
    (∀ c ∈ (l.CreateMissing existing repo Trace.empty).calls,
      ∃ d ∈ l.Config.Labels, c = Call.CreateLabel l.Config.Owner repo d) ∧
    (∀ d ∈ l.Config.Labels,
      (Call.CreateLabel l.Config.Owner repo d ∈ (l.CreateMissing existing repo Trace.empty).calls
        ↔ ∀ e ∈ existing, e.Name ≠ d.Name)) ∧
    (∀ d : Label,
      (l.CreateMissing existing repo Trace.empty).calls.count
          (Call.CreateLabel l.Config.Owner repo d)
        = if ∀ e ∈ existing, e.Name ≠ d.Name then l.Config.Labels.count d else 0) := by
  obtain ⟨h1, h2⟩ := CreateMissing_loop_eq l existing repo hex l.Config.Labels hds Trace.empty
  have hinj : Function.Injective (Call.CreateLabel l.Config.Owner repo) := by
    intro a b hab; injection hab
  have hcalls : (l.CreateMissing existing repo Trace.empty).calls
      = (l.Config.Labels.filter fun d => decide (∀ e ∈ existing, e.Name ≠ d.Name)).map
          (Call.CreateLabel l.Config.Owner repo) := by
    rw [GHLabeler.CreateMissing, h2]; simp [Trace.empty]
  refine ⟨h1, ?_, ?_, ?_⟩
  · intro c hc
    rw [hcalls] at hc
    obtain ⟨d, hd, rfl⟩ := List.mem_map.mp hc
    exact ⟨d, (List.mem_filter.mp hd).1, rfl⟩
  · intro d hd
    rw [hcalls, List.mem_map_of_injective hinj, List.mem_filter]
    simp [hd]
  · intro d
    rw [hcalls, List.count_map_of_injective _ _ hinj]
    by_cases h : ∀ e ∈ existing, e.Name ≠ d.Name
    · rw [if_pos h, List.count_filter (by simpa using h)]
    · rw [if_neg h]
      apply List.count_eq_zero_of_not_mem
      intro hmem
      exact h (by simpa using (List.mem_filter.mp hmem).2)

/-- Witness of C1 on the example scenario. -/
theorem CreateMissing_create_completeness_witness :
    NamesPresent exampleLabeler.Config.Labels ∧ NamesPresent exampleExisting ∧
    (exampleLabeler.CreateMissing exampleExisting "repo" Trace.empty).panicked = false ∧
    (∀ d : Label,
      (exampleLabeler.CreateMissing exampleExisting "repo" Trace.empty).calls.count
          (Call.CreateLabel exampleLabeler.Config.Owner "repo" d)
        = if ∀ e ∈ exampleExisting, e.Name ≠ d.Name then exampleLabeler.Config.Labels.count d
          else 0) :=
  ⟨by decide, by decide,
    (CreateMissing_create_completeness exampleLabeler exampleExisting "repo"
      (by decide) (by decide)).1,
    (CreateMissing_create_completeness exampleLabeler exampleExisting "repo"
      (by decide) (by decide)).2.2.2⟩

/-- C2 (update precision). When every label has a name and a color, `UpdateExisting`
returns and issues only `EditLabel` calls, each identified by the name of a desired label
`d` and carrying `d` itself.  The number of calls carrying `d` is one per occurrence of `d`
in the desired list and per existing label with the name of `d` and a color other than
that of `d`: a name-matched pair with different colors yields its call, a pair with equal
colors yields none, and descriptions are never looked at. -/
theorem UpdateExisting_update_precision (l : GHLabeler) (existing : Labels) (repo : String)
    (hds : WellFormed l.Config.Labels) (hex : WellFormed existing) :
    (l.UpdateExisting existing repo Trace.empty).panicked = false ∧
    (∀ c ∈ (l.UpdateExisting existing repo Trace.empty).calls,
      ∃ d ∈ l.Config.Labels, ∃ n, d.Name = some n ∧
        c = Call.EditLabel l.Config.Owner repo n d) ∧
    (∀ (d : Label) (n : String), d.Name = some n →
      (l.UpdateExisting existing repo Trace.empty).calls.count
          (Call.EditLabel l.Config.Owner repo n d)
        = l.Config.Labels.count d
          * existing.countP fun e => decide (e.Name = d.Name) && decide (e.Color ≠ d.Color)) ∧
    (∀ d ∈ l.Config.Labels, ∀ e ∈ existing, ∀ n : String, d.Name = some n → e.Name = some n →
      d.Color ≠ e.Color →
      Call.EditLabel l.Config.Owner repo n d ∈ (l.UpdateExisting existing repo Trace.empty).calls) ∧
    (∀ (d : Label) (n : String), d.Name = some n →
      (∀ e ∈ existing, e.Name = some n → e.Color = d.Color) →
      Call.EditLabel l.Config.Owner repo n d ∉ (l.UpdateExisting existing repo Trace.empty).calls) := by
  have h1 := (UpdateExisting_loop_eq l existing repo hex l.Config.Labels hds Trace.empty).1
  have hcount := UpdateExisting_calls_count l existing repo hds hex
  refine ⟨h1, ?_, hcount, ?_, ?_⟩
  · obtain ⟨cs, p, hE, hK⟩ := UpdateExisting_loop_emits l.Config existing repo l.Config.Labels
    intro c hc
    have := (hE l.Client Trace.empty).1
    have hcs : (l.UpdateExisting existing repo Trace.empty).calls = cs := by
      simpa [Trace.empty, GHLabeler.UpdateExisting] using this
    exact hK c (hcs ▸ hc)
  · intro d hd e he n hdn hen hcol
    apply List.count_pos_iff.mp
    rw [hcount d n hdn]
    apply Nat.mul_pos (List.count_pos_iff.mpr hd)
    apply List.countP_pos_iff.mpr
    have hcol2 : ¬ e.Color = d.Color := fun h => hcol h.symm
    exact ⟨e, he, by simp [hdn, hen, hcol2]⟩
  · intro d n hdn hall hmem
    have hpos := List.count_pos_iff.mpr hmem
    rw [hcount d n hdn] at hpos
    have hz : (existing.countP fun e => decide (e.Name = d.Name) && decide (e.Color ≠ d.Color))
        = 0 := by
      apply List.countP_eq_zero.mpr
      intro e he
      by_cases hname : e.Name = d.Name
      · simp [hall e he (hname.trans hdn)]
      · simp [hname]
    rw [hz] at hpos
    simp at hpos

/-- Witness of C2: the desired `bug` is red, the existing `bug` is blue. -/
theorem UpdateExisting_update_precision_witness :
    WellFormed [mkLabel "bug" "red"] ∧ WellFormed [mkLabel "bug" "blue"] ∧
    (((GHLabeler.mk okClient ⟨"octo", "host", [mkLabel "bug" "red"]⟩).UpdateExisting
      [mkLabel "bug" "blue"] "repo" Trace.empty).panicked = false) ∧
    (Call.EditLabel "octo" "repo" "bug" (mkLabel "bug" "red") ∈
      ((GHLabeler.mk okClient ⟨"octo", "host", [mkLabel "bug" "red"]⟩).UpdateExisting
        [mkLabel "bug" "blue"] "repo" Trace.empty).calls) :=
  ⟨by decide, by decide,
    (UpdateExisting_update_precision ⟨okClient, ⟨"octo", "host", [mkLabel "bug" "red"]⟩⟩
      [mkLabel "bug" "blue"] "repo" (by decide) (by decide)).1,
    (UpdateExisting_update_precision ⟨okClient, ⟨"octo", "host", [mkLabel "bug" "red"]⟩⟩
      [mkLabel "bug" "blue"] "repo" (by decide) (by decide)).2.2.2.1
      (mkLabel "bug" "red") (by decide) (mkLabel "bug" "blue") (by decide) "bug" rfl rfl
      (by decide)⟩

/-- C3 (delete completeness). With `removeAbsent = true`, names and colors present and
names unique within `existing`, `SetLabels` returns; for every existing label `e` whose
name no desired label has, the run holds exactly one delete call identified by the name of
`e`, namely `DeleteLabel(owner, repo, *e.Name)`; and no delete call of the run is
identified by the name of a desired label. -/
theorem SetLabels_delete_completeness (l : GHLabeler) (existing : Labels) (repo : String)
    (hds : WellFormed l.Config.Labels) (hex : WellFormed existing)
    (hu : UniqueNames existing) :
    (l.SetLabels existing repo true Trace.empty).panicked = false ∧
    (∀ e ∈ existing, ∀ m : String, e.Name = some m → (∀ d ∈ l.Config.Labels, d.Name ≠ e.Name) →
      (l.SetLabels existing repo true Trace.empty).calls.countP
          (fun c => c.isDelete && decide (c.target = some m)) = 1 ∧
      Call.DeleteLabel l.Config.Owner repo m ∈ (l.SetLabels existing repo true Trace.empty).calls) ∧
    (∀ d ∈ l.Config.Labels, ∀ c ∈ (l.SetLabels existing repo true Trace.empty).calls,
      c.isDelete = true → c.target ≠ d.Name) := by
  obtain ⟨h1, h2⟩ := SetLabels_eq l existing repo true hds hex Trace.empty
  have hcalls : (l.SetLabels existing repo true Trace.empty).calls
      = plannedCalls l.Config.Owner repo l.Config.Labels existing true := by
    rw [h2]; simp [Trace.empty]
  have hdel := plannedCalls_filter_delete l.Config.Owner repo l.Config.Labels existing
  refine ⟨h1, ?_, ?_⟩
  · intro e he m hm habs
    constructor
    · have hsplit : (l.SetLabels existing repo true Trace.empty).calls.countP
            (fun c => c.isDelete && decide (c.target = some m))
          = ((plannedCalls l.Config.Owner repo l.Config.Labels existing true).filter
              Call.isDelete).countP (fun c => decide (c.target = some m)) := by
        rw [hcalls, List.countP_filter]
        apply List.countP_congr
        intro c _
        simp [and_comm]
      rw [hsplit, hdel, List.countP_map]
      have := countP_name_unmatched l.Config.Labels existing hu e he habs
      rw [← this]
      apply List.countP_congr
      intro x hx
      have hxe : x ∈ existing := (List.mem_filter.mp hx).1
      obtain ⟨k, hk⟩ := Option.isSome_iff_exists.mp (hex x hxe).1
      simp [deleteCallOf, Call.target, hk, hm]
    · have hmem : deleteCallOf l.Config.Owner repo e
          ∈ (plannedCalls l.Config.Owner repo l.Config.Labels existing true).filter
              Call.isDelete := by
        rw [hdel]
        apply List.mem_map_of_mem
        exact List.mem_filter.mpr ⟨he, by simpa using habs⟩
      rw [hcalls]
      have := (List.mem_filter.mp hmem).1
      simpa [deleteCallOf, hm] using this
  · intro d hd c hc hdelc
    rw [hcalls] at hc
    have hmem : c ∈ (plannedCalls l.Config.Owner repo l.Config.Labels existing true).filter
        Call.isDelete := List.mem_filter.mpr ⟨hc, hdelc⟩
    rw [hdel] at hmem
    obtain ⟨e, he, rfl⟩ := List.mem_map.mp hmem
    obtain ⟨hee, hp⟩ := List.mem_filter.mp he
    obtain ⟨k, hk⟩ := Option.isSome_iff_exists.mp (hex e hee).1
    have hp2 : ∀ y ∈ l.Config.Labels, y.Name ≠ e.Name := by simpa using hp
    have := hp2 d hd
    simp only [deleteCallOf, Call.target, hk, Option.getD_some]
    intro hcontra
    exact this (by rw [hk, ← hcontra])

/-- Witness of C3 on the example scenario: `stale` is deleted exactly once. -/
theorem SetLabels_delete_completeness_witness :
    WellFormed exampleLabeler.Config.Labels ∧ WellFormed exampleExisting ∧
    UniqueNames exampleExisting ∧
    (exampleLabeler.SetLabels exampleExisting "repo" true Trace.empty).calls.countP
      (fun c => c.isDelete && decide (c.target = some "stale")) = 1 :=
  ⟨by decide, by decide, by decide,
    ((SetLabels_delete_completeness exampleLabeler exampleExisting "repo"
      (by decide) (by decide) (by decide)).2.1
        (mkLabel "stale" "cccccc") (by decide) "stale" rfl (by decide)).1⟩

/-- C4 (delete gating). For every labeler, existing list and repository, the run of
`SetLabels` with `removeAbsent = false` holds no delete call, and its calls are exactly the
create and update calls of the run with `removeAbsent = true`: the latter is the former
followed by delete calls only. -/
theorem SetLabels_delete_gating (l : GHLabeler) (existing : Labels) (repo : String) :
    (∀ c ∈ (l.SetLabels existing repo false Trace.empty).calls, c.isDelete = false) ∧
    ((l.SetLabels existing repo true Trace.empty).calls.filter (fun c => !c.isDelete)
      = (l.SetLabels existing repo false Trace.empty).calls) ∧
    (∃ ds : List Call, (∀ c ∈ ds, c.isDelete = true) ∧
      (l.SetLabels existing repo true Trace.empty).calls
        = (l.SetLabels existing repo false Trace.empty).calls ++ ds) := by
  obtain ⟨client, cfg⟩ := l
  obtain ⟨cs, us, ds, p1, p2, p3, -, -, -, hS, hc, hu, hd⟩ := SetLabels_emits cfg existing repo
  have hF := (hS false client Trace.empty).1
  have hT := (hS true client Trace.empty).1
  simp only [Trace.empty, List.nil_append] at hF hT
  simp only [Trace.empty]
  rw [hF, hT]
  have hnodel : ∀ c ∈ cs ++ (if p1 = true then [] else us ++ if p2 = true then []
      else if false = true then ds else []), c.isDelete = false := by
    intro c hmem
    have : c.phase = 0 ∨ c.phase = 1 := by
      cases p1 with
      | true => simp at hmem; exact Or.inl (hc c hmem)
      | false =>
        have hmem2 : c ∈ cs ∨ c ∈ us := by cases p2 <;> simpa using hmem
        rcases hmem2 with h | h
        · exact Or.inl (hc c h)
        · exact Or.inr (hu c h)
    rcases this with h | h <;> simp [Call.isDelete, h]
  refine ⟨hnodel, ?_, ?_⟩
  · have hfilt : ∀ xs : List Call, (∀ c ∈ xs, c.isDelete = false) →
        xs.filter (fun c => !c.isDelete) = xs := by
      intro xs h
      rw [List.filter_eq_self]
      intro c hmem
      simp [h c hmem]
    have hfd : ds.filter (fun c => !c.isDelete) = [] := by
      rw [List.filter_eq_nil_iff]
      intro c hmem
      simp [Call.isDelete, hd c hmem]
    rw [← hfilt _ hnodel]
    cases p1 <;> cases p2 <;> simp [hfd]
  · refine ⟨if p1 || p2 then [] else ds, ?_, ?_⟩
    · intro c hmem
      cases p1 <;> cases p2 <;> simp at hmem
      simp [Call.isDelete, hd c hmem]
    · cases p1 <;> cases p2 <;> simp

/-- C5 (phase order over one snapshot). The calls of a `SetLabels` run are those of
`CreateMissing`, then those of `UpdateExisting`, then (with `removeAbsent`) those of
`RemoveAbsent`, each computed on the same `existing` list; a phase runs only if the phases
before it returned, so for a run that returns the three sequences are there in full.  In
every run no update call comes before a create call and no delete call comes before a
create or update call. -/
theorem SetLabels_phase_order (l : GHLabeler) (existing : Labels) (repo : String)
    (removeAbsent : Bool) :
    ((l.SetLabels existing repo removeAbsent Trace.empty).calls
      = (l.CreateMissing existing repo Trace.empty).calls
        ++ if (l.CreateMissing existing repo Trace.empty).panicked then []
          else (l.UpdateExisting existing repo Trace.empty).calls
            ++ if (l.UpdateExisting existing repo Trace.empty).panicked then []
              else if removeAbsent then (l.RemoveAbsent existing repo Trace.empty).calls
                else []) ∧
    ((l.SetLabels existing repo removeAbsent Trace.empty).panicked = false →
      (l.SetLabels existing repo removeAbsent Trace.empty).calls
        = (l.CreateMissing existing repo Trace.empty).calls
          ++ (l.UpdateExisting existing repo Trace.empty).calls
          ++ if removeAbsent then (l.RemoveAbsent existing repo Trace.empty).calls else []) ∧
    (∀ c ∈ (l.CreateMissing existing repo Trace.empty).calls, c.isCreate = true) ∧
    (∀ c ∈ (l.UpdateExisting existing repo Trace.empty).calls, c.isEdit = true) ∧
    (∀ c ∈ (l.RemoveAbsent existing repo Trace.empty).calls, c.isDelete = true) ∧
    (l.SetLabels existing repo removeAbsent Trace.empty).calls.Pairwise
      (fun a b => a.phase ≤ b.phase) := by
  obtain ⟨client, cfg⟩ := l
  obtain ⟨cs, us, ds, p1, p2, p3, h1, h2, h3, hS, hc, hu, hd⟩ :=
    SetLabels_emits cfg existing repo
  obtain ⟨a1, a2⟩ := h1 client Trace.empty
  obtain ⟨b1, b2⟩ := h2 client Trace.empty
  obtain ⟨c1, c2⟩ := h3 client Trace.empty
  obtain ⟨s1, s2⟩ := hS removeAbsent client Trace.empty
  simp only [Trace.empty, List.nil_append] at a1 b1 c1 s1
  simp only [Trace.empty] at a2 b2 c2 s2 ⊢
  rw [a1, a2, b1, b2, c1, s1, s2]
  refine ⟨rfl, ?_, ?_, ?_, ?_, ?_⟩
  · intro hp
    cases p1 <;> cases p2 <;> simp at hp ⊢
  · intro c h; simp [Call.isCreate, hc c h]
  · intro c h; simp [Call.isEdit, hu c h]
  · intro c h; simp [Call.isDelete, hd c h]
  · have hcs : cs.Pairwise (fun a b => a.phase ≤ b.phase) :=
      List.pairwise_of_forall_mem_list fun a ha b hb => by rw [hc a ha, hc b hb]
    have hus : us.Pairwise (fun a b => a.phase ≤ b.phase) :=
      List.pairwise_of_forall_mem_list fun a ha b hb => by rw [hu a ha, hu b hb]
    have hds : ds.Pairwise (fun a b => a.phase ≤ b.phase) :=
      List.pairwise_of_forall_mem_list fun a ha b hb => by rw [hd a ha, hd b hb]
    have hud : (us ++ ds).Pairwise (fun a b => a.phase ≤ b.phase) :=
      List.pairwise_append.mpr ⟨hus, hds, fun a ha b hb => by rw [hu a ha, hd b hb]; decide⟩
    have hcu : (cs ++ us).Pairwise (fun a b => a.phase ≤ b.phase) :=
      List.pairwise_append.mpr ⟨hcs, hus, fun a ha b hb => by rw [hc a ha, hu b hb]; decide⟩
    have hall : (cs ++ (us ++ ds)).Pairwise (fun a b => a.phase ≤ b.phase) :=
      List.pairwise_append.mpr ⟨hcs, hud, fun a ha b hb => by
        rw [hc a ha]; exact Nat.zero_le _⟩
    cases p1 <;> cases p2 <;> cases removeAbsent <;> simp <;> assumption

/-- Witness of C5 on the example scenario. -/
theorem SetLabels_phase_order_witness :
    (exampleLabeler.SetLabels exampleExisting "repo" true Trace.empty).panicked = false ∧
    (exampleLabeler.SetLabels exampleExisting "repo" true Trace.empty).calls
      = (exampleLabeler.CreateMissing exampleExisting "repo" Trace.empty).calls
        ++ (exampleLabeler.UpdateExisting exampleExisting "repo" Trace.empty).calls
        ++ (if true then (exampleLabeler.RemoveAbsent exampleExisting "repo" Trace.empty).calls
          else []) :=
  ⟨by decide,
    (SetLabels_phase_order exampleLabeler exampleExisting "repo" true).2.1 (by decide)⟩

/-- C6 (partial-failure isolation). For one configuration, existing list, repository and
flag, any two clients, however they answer the individual calls, are handed the same calls
in the same order by `SetLabels` (and the run ends the same way): the answer to a call is
only logged and never decides whether a later call is issued. -/
theorem SetLabels_failure_isolation (client1 client2 : IssuesService) (cfg : Config)
    (existing : Labels) (repo : String) (removeAbsent : Bool) :
    ((GHLabeler.mk client1 cfg).SetLabels existing repo removeAbsent Trace.empty).calls
      = ((GHLabeler.mk client2 cfg).SetLabels existing repo removeAbsent Trace.empty).calls ∧
    ((GHLabeler.mk client1 cfg).SetLabels existing repo removeAbsent Trace.empty).panicked
      = ((GHLabeler.mk client2 cfg).SetLabels existing repo removeAbsent Trace.empty).panicked := by
  obtain ⟨cs, us, ds, p1, p2, p3, -, -, -, hS, -, -, -⟩ := SetLabels_emits cfg existing repo
  obtain ⟨a1, a2⟩ := hS removeAbsent client1 Trace.empty
  obtain ⟨b1, b2⟩ := hS removeAbsent client2 Trace.empty
  exact ⟨a1.trans b1.symm, a2.trans b2.symm⟩

/-- C7 (idempotence). Let every label have a name and a color and let names be unique
within the desired list.  Run `SetLabels` with a client whose calls all succeed, apply all
its calls to the existing set (create adds, update replaces by name, delete removes by
name), and run `SetLabels` again with the same desired list and flag on the resulting set:
the second run returns without issuing any create, update or delete call.  Uniqueness of
names within the existing list is not needed. -/
theorem SetLabels_idempotent (cfg : Config) (existing : Labels) (repo : String)
    (removeAbsent : Bool) (hds : WellFormed cfg.Labels) (hex : WellFormed existing)
    (hu : UniqueNames cfg.Labels) :
    ((GHLabeler.mk okClient cfg).SetLabels existing repo removeAbsent Trace.empty).panicked
      = false ∧
    ((GHLabeler.mk okClient cfg).SetLabels
      (applyCalls existing
        ((GHLabeler.mk okClient cfg).SetLabels existing repo removeAbsent Trace.empty).calls)
      repo removeAbsent Trace.empty).panicked = false ∧
    ((GHLabeler.mk okClient cfg).SetLabels
      (applyCalls existing
        ((GHLabeler.mk okClient cfg).SetLabels existing repo removeAbsent Trace.empty).calls)
      repo removeAbsent Trace.empty).calls = [] := by
  obtain ⟨a1, a2⟩ := SetLabels_eq ⟨okClient, cfg⟩ existing repo removeAbsent hds hex Trace.empty
  have hcalls : ((GHLabeler.mk okClient cfg).SetLabels existing repo removeAbsent
      Trace.empty).calls = plannedCalls cfg.Owner repo cfg.Labels existing removeAbsent := by
    rw [a2]; simp [Trace.empty]
  obtain ⟨r1, r2, r3, r4⟩ :=
    remote_after_run cfg.Owner repo cfg.Labels existing removeAbsent hds hex hu
  rw [hcalls]
  obtain ⟨b1, b2⟩ := SetLabels_eq ⟨okClient, cfg⟩
    (applyCalls existing (plannedCalls cfg.Owner repo cfg.Labels existing removeAbsent))
    repo removeAbsent hds r1 Trace.empty
  refine ⟨a1, b1, ?_⟩
  rw [b2, plannedCalls_eq_nil cfg.Owner repo cfg.Labels _ removeAbsent r2 r4 r3]
  rfl

/-- Witness of C7 on the example scenario, with `removeAbsent = true`. -/
theorem SetLabels_idempotent_witness :
    WellFormed exampleConfig.Labels ∧ WellFormed exampleExisting ∧
    UniqueNames exampleConfig.Labels ∧
    ((GHLabeler.mk okClient exampleConfig).SetLabels
      (applyCalls exampleExisting
        ((GHLabeler.mk okClient exampleConfig).SetLabels exampleExisting "repo" true
          Trace.empty).calls)
      "repo" true Trace.empty).calls = [] :=
  ⟨by decide, by decide, by decide,
    (SetLabels_idempotent exampleConfig exampleExisting "repo" true
      (by decide) (by decide) (by decide)).2.2⟩

/-- C8 (convergence). Let every label have a name and a color and let names be unique
within the desired list.  After a `SetLabels` run whose calls all succeed and are applied to
the existing set (create adds, update replaces by name, delete removes by name), every
desired label is in the remote set under its name with the desired color, no remote label
of a desired name has another color, and with `removeAbsent = true` every remote label has
the name and the color of a desired label: the remote pairs of name and color are the
desired ones.  Uniqueness of names within the existing list is not needed. -/
theorem SetLabels_convergence (cfg : Config) (existing : Labels) (repo : String)
    (removeAbsent : Bool) (hds : WellFormed cfg.Labels) (hex : WellFormed existing)
    (hu : UniqueNames cfg.Labels) :
    ((GHLabeler.mk okClient cfg).SetLabels existing repo removeAbsent Trace.empty).panicked
      = false ∧
    (∀ d ∈ cfg.Labels, ∃ y ∈ applyCalls existing
        ((GHLabeler.mk okClient cfg).SetLabels existing repo removeAbsent Trace.empty).calls,
      y.Name = d.Name ∧ y.Color = d.Color) ∧
    (∀ d ∈ cfg.Labels, ∀ y ∈ applyCalls existing
        ((GHLabeler.mk okClient cfg).SetLabels existing repo removeAbsent Trace.empty).calls,
      y.Name = d.Name → y.Color = d.Color) ∧
    (removeAbsent = true →
      (∀ y ∈ applyCalls existing
          ((GHLabeler.mk okClient cfg).SetLabels existing repo removeAbsent Trace.empty).calls,
        ∃ d ∈ cfg.Labels, d.Name = y.Name ∧ d.Color = y.Color) ∧
      (∀ (n : Option String) (c : Option String),
        (∃ y ∈ applyCalls existing
            ((GHLabeler.mk okClient cfg).SetLabels existing repo removeAbsent Trace.empty).calls,
          y.Name = n ∧ y.Color = c)
        ↔ ∃ d ∈ cfg.Labels, d.Name = n ∧ d.Color = c)) := by
  obtain ⟨a1, a2⟩ := SetLabels_eq ⟨okClient, cfg⟩ existing repo removeAbsent hds hex Trace.empty
  have hcalls : ((GHLabeler.mk okClient cfg).SetLabels existing repo removeAbsent
      Trace.empty).calls = plannedCalls cfg.Owner repo cfg.Labels existing removeAbsent := by
    rw [a2]; simp [Trace.empty]
  obtain ⟨_, r2, r3, r4⟩ :=
    remote_after_run cfg.Owner repo cfg.Labels existing removeAbsent hds hex hu
  rw [hcalls]
  have hpresent : ∀ d ∈ cfg.Labels,
      ∃ y ∈ applyCalls existing (plannedCalls cfg.Owner repo cfg.Labels existing removeAbsent),
        y.Name = d.Name ∧ y.Color = d.Color := by
    intro d hd
    obtain ⟨y, hy, hname⟩ := r2 d hd
    exact ⟨y, hy, hname, r3 d hd y hy hname⟩
  have honly : removeAbsent = true →
      ∀ y ∈ applyCalls existing (plannedCalls cfg.Owner repo cfg.Labels existing removeAbsent),
        ∃ d ∈ cfg.Labels, d.Name = y.Name ∧ d.Color = y.Color := by
    intro hra y hy
    obtain ⟨d, hd, hname⟩ := r4 hra y hy
    exact ⟨d, hd, hname, (r3 d hd y hy hname.symm).symm⟩
  refine ⟨a1, hpresent, r3, fun hra => ⟨honly hra, ?_⟩⟩
  intro n c
  constructor
  · rintro ⟨y, hy, rfl, rfl⟩
    exact honly hra y hy
  · rintro ⟨d, hd, rfl, rfl⟩
    exact hpresent d hd

/-- Witness of C8 on the example scenario, with `removeAbsent = true`. -/
theorem SetLabels_convergence_witness :
    WellFormed exampleConfig.Labels ∧ WellFormed exampleExisting ∧
    UniqueNames exampleConfig.Labels ∧
    (∀ d ∈ exampleConfig.Labels, ∃ y ∈ applyCalls exampleExisting
        ((GHLabeler.mk okClient exampleConfig).SetLabels exampleExisting "repo" true
          Trace.empty).calls,
      y.Name = d.Name ∧ y.Color = d.Color) :=
  ⟨by decide, by decide, by decide,
    (SetLabels_convergence exampleConfig exampleExisting "repo" true
      (by decide) (by decide) (by decide)).2.1⟩

/-- C9 (no-op when in sync). When every label has a name and a color, the desired and
the existing list carry the same names, and every name-matched pair has the same color,
`SetLabels` returns without issuing any call, for either value of `removeAbsent`.
Descriptions are not constrained, and uniqueness of names is not needed. -/
theorem SetLabels_noop_in_sync (l : GHLabeler) (existing : Labels) (repo : String)
    (removeAbsent : Bool)
    (hds : WellFormed l.Config.Labels) (hex : WellFormed existing)
    (h1 : ∀ d ∈ l.Config.Labels, ∃ e ∈ existing, e.Name = d.Name)
    (h2 : ∀ e ∈ existing, ∃ d ∈ l.Config.Labels, d.Name = e.Name)
    (h3 : ∀ d ∈ l.Config.Labels, ∀ e ∈ existing, e.Name = d.Name → e.Color = d.Color) :
    (l.SetLabels existing repo removeAbsent Trace.empty).panicked = false ∧
    (l.SetLabels existing repo removeAbsent Trace.empty).calls = [] := by
  obtain ⟨a1, a2⟩ := SetLabels_eq l existing repo removeAbsent hds hex Trace.empty
  refine ⟨a1, ?_⟩
  rw [a2, plannedCalls_eq_nil l.Config.Owner repo l.Config.Labels existing removeAbsent h1
    (fun _ => h2) h3]
  rfl

/-- Witness of C9: same names and colors, different descriptions, different order. -/
theorem SetLabels_noop_in_sync_witness :
    WellFormed [Label.mk (some "bug") (some "d73a4a") (some "broken"),
      Label.mk (some "docs") (some "0075ca") none] ∧
    WellFormed [Label.mk (some "docs") (some "0075ca") (some "documentation"),
      Label.mk (some "bug") (some "d73a4a") none] ∧
    ((GHLabeler.mk failClient ⟨"octo", "host",
        [Label.mk (some "bug") (some "d73a4a") (some "broken"),
          Label.mk (some "docs") (some "0075ca") none]⟩).SetLabels
      [Label.mk (some "docs") (some "0075ca") (some "documentation"),
        Label.mk (some "bug") (some "d73a4a") none] "repo" true Trace.empty).calls = [] :=
  ⟨by decide, by decide,
    (SetLabels_noop_in_sync
      ⟨failClient, ⟨"octo", "host",
        [Label.mk (some "bug") (some "d73a4a") (some "broken"),
          Label.mk (some "docs") (some "0075ca") none]⟩⟩
      [Label.mk (some "docs") (some "0075ca") (some "documentation"),
        Label.mk (some "bug") (some "d73a4a") none] "repo" true
      (by decide) (by decide) (by decide) (by decide) (by decide)).2⟩

/-- C10, as stated, fails.  The desired `bug` is red; the existing list holds `bug` twice,
red first and blue second.  The first match has the color of the desired label, so a
first-match rule issues nothing, yet `UpdateExisting` issues an update call.  With the
existing `bug` blue first and green second it issues two update calls for the one desired
label. -/
theorem UpdateExisting_first_match_counterexample :
    firstMatch [mkLabel "bug" "red", mkLabel "bug" "blue"] "bug" = some (mkLabel "bug" "red") ∧
    ((GHLabeler.mk okClient ⟨"octo", "host", [mkLabel "bug" "red"]⟩).UpdateExisting
        [mkLabel "bug" "red", mkLabel "bug" "blue"] "repo" Trace.empty).calls
      = [Call.EditLabel "octo" "repo" "bug" (mkLabel "bug" "red")] ∧
    ((GHLabeler.mk okClient ⟨"octo", "host", [mkLabel "bug" "red"]⟩).UpdateExisting
        [mkLabel "bug" "blue", mkLabel "bug" "green"] "repo" Trace.empty).calls
      = [Call.EditLabel "octo" "repo" "bug" (mkLabel "bug" "red"),
          Call.EditLabel "octo" "repo" "bug" (mkLabel "bug" "red")] := by
  decide

/-- C10, amended (every match counts).  When every label has a name and a color, a desired
label `d` is compared with every existing label of its name, whatever their number:
`UpdateExisting` issues, per occurrence of `d` in the desired list, one update call for
each existing label with the name of `d` and another color.  So an update call for `d` is
issued if and only if some existing label of that name, first or not, differs in color. -/
theorem UpdateExisting_every_match (l : GHLabeler) (existing : Labels) (repo : String)
    (hds : WellFormed l.Config.Labels) (hex : WellFormed existing)
    (d : Label) (hd : d ∈ l.Config.Labels) (n : String) (hn : d.Name = some n) :
    ((l.UpdateExisting existing repo Trace.empty).calls.count
        (Call.EditLabel l.Config.Owner repo n d)
      = l.Config.Labels.count d
        * existing.countP fun e => decide (e.Name = some n) && decide (e.Color ≠ d.Color)) ∧
    (Call.EditLabel l.Config.Owner repo n d ∈ (l.UpdateExisting existing repo Trace.empty).calls
      ↔ ∃ e ∈ existing, e.Name = some n ∧ e.Color ≠ d.Color) := by
  have hcount := UpdateExisting_calls_count l existing repo hds hex d n hn
  rw [hn] at hcount
  refine ⟨hcount, ?_⟩
  rw [← List.count_pos_iff, hcount]
  constructor
  · intro hpos
    have hp : 0 < existing.countP
        fun e => decide (e.Name = some n) && decide (e.Color ≠ d.Color) :=
      Nat.pos_of_mul_pos_left hpos
    obtain ⟨e, he, hpe⟩ := List.countP_pos_iff.mp hp
    exact ⟨e, he, by simpa using hpe⟩
  · rintro ⟨e, he, hen, hec⟩
    apply Nat.mul_pos (List.count_pos_iff.mpr hd)
    exact List.countP_pos_iff.mpr ⟨e, he, by simp [hen, hec]⟩

/-- Witness of the amended C10: the second of two existing `bug` labels differs in color. -/
theorem UpdateExisting_every_match_witness :
    WellFormed [mkLabel "bug" "red"] ∧
    WellFormed [mkLabel "bug" "red", mkLabel "bug" "blue"] ∧
    (Call.EditLabel "octo" "repo" "bug" (mkLabel "bug" "red")
        ∈ ((GHLabeler.mk okClient ⟨"octo", "host", [mkLabel "bug" "red"]⟩).UpdateExisting
          [mkLabel "bug" "red", mkLabel "bug" "blue"] "repo" Trace.empty).calls
      ↔ ∃ e ∈ [mkLabel "bug" "red", mkLabel "bug" "blue"],
          e.Name = some "bug" ∧ e.Color ≠ (mkLabel "bug" "red").Color) :=
  ⟨by decide, by decide,
    (UpdateExisting_every_match ⟨okClient, ⟨"octo", "host", [mkLabel "bug" "red"]⟩⟩
      [mkLabel "bug" "red", mkLabel "bug" "blue"] "repo" (by decide) (by decide)
      (mkLabel "bug" "red") (by decide) "bug" rfl).2⟩

/-- C11 (example scenario). With desired `bug/d73a4a`, `wontfix/ffffff` and existing
`bug/d73a4a`, `stale/cccccc`, whatever the client answers: `SetLabels` with
`removeAbsent = true` returns having issued exactly the create of `wontfix/ffffff` and then
the delete of `stale`, and no update; with `removeAbsent = false` it returns having issued
exactly that create. -/
theorem SetLabels_example_scenario (client : IssuesService) (repo : String) :
    ((GHLabeler.mk client exampleConfig).SetLabels exampleExisting repo true
        Trace.empty).panicked = false ∧
    ((GHLabeler.mk client exampleConfig).SetLabels exampleExisting repo true Trace.empty).calls
      = [Call.CreateLabel "octo" repo (mkLabel "wontfix" "ffffff"),
          Call.DeleteLabel "octo" repo "stale"] ∧
    ((GHLabeler.mk client exampleConfig).SetLabels exampleExisting repo false
        Trace.empty).panicked = false ∧
    ((GHLabeler.mk client exampleConfig).SetLabels exampleExisting repo false Trace.empty).calls
      = [Call.CreateLabel "octo" repo (mkLabel "wontfix" "ffffff")] := by
  have hds : WellFormed exampleConfig.Labels := by decide
  have hex : WellFormed exampleExisting := by decide
  obtain ⟨a1, a2⟩ := SetLabels_eq ⟨client, exampleConfig⟩ exampleExisting repo true hds hex
    Trace.empty
  obtain ⟨b1, b2⟩ := SetLabels_eq ⟨client, exampleConfig⟩ exampleExisting repo false hds hex
    Trace.empty
  refine ⟨a1, ?_, b1, ?_⟩
  · rw [a2]; rfl
  · rw [b2]; rfl

/-- C12 (fetch error). The listing behind `GetLabels` is the `ListLabels` of the go-github
client, which hands back no label with every error.  Whenever it answers with an error,
`GetLabels` still returns, and with no error of its own: it adds one line to the log, issues
no call, and its result, the existing snapshot, is the empty label set.  The run then goes
on against that snapshot: `SetLabels` returns having issued one create call per desired
label and nothing else. -/
theorem GetLabels_fetch_error (l : GHLabeler) (listLabels : ListLabelsService)
    (repo : String) (removeAbsent : Bool) (t : Trace)
    (hnil : NilOnError listLabels)
    (herr : (listLabels l.Config.Owner repo).2 = true) :
    (l.GetLabels listLabels repo t).1 = [] ∧
    (l.GetLabels listLabels repo t).2.calls = t.calls ∧
    (l.GetLabels listLabels repo t).2.logs
      = t.logs ++ [accessErrorLine l.Config.Owner repo] ∧
    (l.SetLabels (l.GetLabels listLabels repo t).1 repo removeAbsent
      (l.GetLabels listLabels repo t).2).panicked = false ∧
    (l.SetLabels (l.GetLabels listLabels repo t).1 repo removeAbsent
      (l.GetLabels listLabels repo t).2).calls
      = t.calls ++ l.Config.Labels.map (Call.CreateLabel l.Config.Owner repo) := by
  have hempty := hnil l.Config.Owner repo herr
  have hres : (l.GetLabels listLabels repo t).1 = [] := by
    unfold GHLabeler.GetLabels
    rcases h : listLabels l.Config.Owner repo with ⟨labels, err⟩
    rw [h] at hempty
    exact hempty
  have htrace : (l.GetLabels listLabels repo t).2
      = { t with logs := t.logs ++ [accessErrorLine l.Config.Owner repo] } := by
    unfold GHLabeler.GetLabels
    rcases h : listLabels l.Config.Owner repo with ⟨labels, err⟩
    rw [h] at herr
    simp only at herr
    simp [herr]
  obtain ⟨s1, s2⟩ := SetLabels_on_nil l repo removeAbsent (l.GetLabels listLabels repo t).2
  rw [hres]
  refine ⟨rfl, ?_, ?_, s1, ?_⟩
  · rw [htrace]
  · rw [htrace]
  · rw [s2, htrace]

/-- Witness of C12: the listing of the repository `gone` fails, that of any other
repository answers with the existing labels of the example scenario. -/
theorem GetLabels_fetch_error_witness :
    NilOnError exampleListing ∧
    (exampleListing exampleLabeler.Config.Owner "gone").2 = true ∧
    (exampleLabeler.GetLabels exampleListing "gone" Trace.empty).1 = [] ∧
    (exampleLabeler.SetLabels (exampleLabeler.GetLabels exampleListing "gone" Trace.empty).1
      "gone" true (exampleLabeler.GetLabels exampleListing "gone" Trace.empty).2).calls
      = Trace.empty.calls
        ++ exampleLabeler.Config.Labels.map (Call.CreateLabel exampleLabeler.Config.Owner "gone") :=
  ⟨exampleListing_nilOnError, by decide,
    (GetLabels_fetch_error exampleLabeler exampleListing "gone" true Trace.empty
      exampleListing_nilOnError (by decide)).1,
    (GetLabels_fetch_error exampleLabeler exampleListing "gone" true Trace.empty
      exampleListing_nilOnError (by decide)).2.2.2.2⟩

/-- C13 (empty snapshot). For every desired list, whatever its labels hold, `SetLabels`
against an empty existing list returns having issued exactly one create call per desired
label, in the order of the desired list, and nothing else: no update call and no delete
call, for either value of `removeAbsent`. -/
theorem SetLabels_empty_snapshot (l : GHLabeler) (repo : String) (removeAbsent : Bool) :
    (l.SetLabels [] repo removeAbsent Trace.empty).panicked = false ∧
    (l.SetLabels [] repo removeAbsent Trace.empty).calls
      = l.Config.Labels.map (Call.CreateLabel l.Config.Owner repo) := by
  obtain ⟨a1, a2⟩ := CreateMissing_loop_nil l repo l.Config.Labels Trace.empty
  unfold GHLabeler.SetLabels GHLabeler.CreateMissing GHLabeler.UpdateExisting
    GHLabeler.RemoveAbsent
  rw [Outcome_eq_done_of_not_panicked a1]
  simp only [Outcome.andThen, UpdateExisting_loop_nil, RemoveAbsent.loop, ite_self]
  refine ⟨rfl, ?_⟩
  have : (CreateMissing.loop l [] repo l.Config.Labels Trace.empty).trace.calls = _ := a2
  simpa [Outcome.calls, Outcome.trace, Trace.empty] using this

/-- C14 (phase targets are disjoint). For every desired and existing list, with nothing
assumed of their labels, and either flag: in the calls of a `SetLabels` run the name of
every created label is absent from the existing list, every updated name is carried by a
desired and by an existing label, and every deleted name is carried by an existing label
and by no desired one.  Hence calls of two different phases never have the same name: no
label created or updated in a run is deleted in it. -/
theorem SetLabels_phase_targets_disjoint (l : GHLabeler) (existing : Labels) (repo : String)
    (removeAbsent : Bool) :
    (∀ c ∈ (l.SetLabels existing repo removeAbsent Trace.empty).calls,
      (c.isCreate = true → ∀ e ∈ existing, e.Name ≠ c.target) ∧
      (c.isEdit = true →
        (∃ d ∈ l.Config.Labels, d.Name = c.target) ∧ ∃ e ∈ existing, e.Name = c.target) ∧
      (c.isDelete = true →
        (∃ e ∈ existing, e.Name = c.target) ∧ ∀ d ∈ l.Config.Labels, d.Name ≠ c.target)) ∧
    (∀ c1 ∈ (l.SetLabels existing repo removeAbsent Trace.empty).calls,
      ∀ c2 ∈ (l.SetLabels existing repo removeAbsent Trace.empty).calls,
      c1.phase ≠ c2.phase → c1.target ≠ c2.target) := by
  constructor
  · intro c hc
    rcases SetLabels_kind l existing repo removeAbsent c hc with ⟨hp, h⟩ | ⟨hp, h⟩ | ⟨hp, h⟩
    · exact ⟨fun _ => h, by simp [Call.isEdit, hp], by simp [Call.isDelete, hp]⟩
    · exact ⟨by simp [Call.isCreate, hp], fun _ => h, by simp [Call.isDelete, hp]⟩
    · exact ⟨by simp [Call.isCreate, hp], by simp [Call.isEdit, hp], fun _ => h⟩
  · exact SetLabels_cross_phase l existing repo removeAbsent

/-- Witness of C14 on the example scenario: the deleted name `stale` is existing and not
desired. -/
theorem SetLabels_phase_targets_disjoint_witness :
    Call.DeleteLabel "octo" "repo" "stale"
      ∈ (exampleLabeler.SetLabels exampleExisting "repo" true Trace.empty).calls ∧
    ((∃ e ∈ exampleExisting, e.Name = some "stale") ∧
      ∀ d ∈ exampleLabeler.Config.Labels, d.Name ≠ some "stale") :=
  ⟨by decide,
    ((SetLabels_phase_targets_disjoint exampleLabeler exampleExisting "repo" true).1
      (Call.DeleteLabel "octo" "repo" "stale") (by decide)).2.2 rfl⟩

/-- C15 (the flag-and-scan loops equal a filter). When every label has a name,
`CreateMissing` returns and its calls are, in order, the creates of the desired list
filtered by the membership test "the name is not among the existing names"; `RemoveAbsent`
returns and its calls are, in order, the deletes by name of the existing list filtered by
the membership test "the name is not among the desired names".  Scanning on after a match
changes nothing. -/
theorem scan_loops_eq_filter (l : GHLabeler) (existing : Labels) (repo : String)
    (hds : NamesPresent l.Config.Labels) (hex : NamesPresent existing) :
    (l.CreateMissing existing repo Trace.empty).panicked = false ∧
    (l.CreateMissing existing repo Trace.empty).calls
      = (missingByMembership l.Config.Labels existing).map
          (Call.CreateLabel l.Config.Owner repo) ∧
    (l.RemoveAbsent existing repo Trace.empty).panicked = false ∧
    (l.RemoveAbsent existing repo Trace.empty).calls
      = (absentByMembership l.Config.Labels existing).map (deleteCallOf l.Config.Owner repo) ∧
    (∀ c ∈ (l.RemoveAbsent existing repo Trace.empty).calls, c.isDelete = true) ∧
    (l.RemoveAbsent existing repo Trace.empty).calls.map Call.target
      = (absentByMembership l.Config.Labels existing).map (·.Name) := by
  obtain ⟨a1, a2⟩ := CreateMissing_loop_eq l existing repo hex l.Config.Labels hds Trace.empty
  obtain ⟨b1, b2⟩ := RemoveAbsent_loop_eq l repo hds existing hex Trace.empty
  have ha := unmatched_eq_membership existing l.Config.Labels
  have hb := unmatched_eq_membership l.Config.Labels existing
  unfold unmatched at ha hb
  have hcm : (l.CreateMissing existing repo Trace.empty).calls
      = (missingByMembership l.Config.Labels existing).map
          (Call.CreateLabel l.Config.Owner repo) := by
    rw [GHLabeler.CreateMissing, a2, ha]; rfl
  have hra : (l.RemoveAbsent existing repo Trace.empty).calls
      = (absentByMembership l.Config.Labels existing).map
          (deleteCallOf l.Config.Owner repo) := by
    rw [GHLabeler.RemoveAbsent, b2, hb]; rfl
  refine ⟨a1, hcm, b1, hra, ?_, ?_⟩
  · intro c hc
    rw [hra] at hc
    obtain ⟨e, _, rfl⟩ := List.mem_map.mp hc
    rfl
  · rw [hra, List.map_map]
    apply List.map_congr_left
    intro e he
    obtain ⟨k, hk⟩ := Option.isSome_iff_exists.mp (hex e (List.mem_filter.mp he).1)
    simp [deleteCallOf, Call.target, hk]

/-- Witness of C15 on the example scenario. -/
theorem scan_loops_eq_filter_witness :
    NamesPresent exampleLabeler.Config.Labels ∧ NamesPresent exampleExisting ∧
    (exampleLabeler.CreateMissing exampleExisting "repo" Trace.empty).calls
      = (missingByMembership exampleLabeler.Config.Labels exampleExisting).map
          (Call.CreateLabel exampleLabeler.Config.Owner "repo") ∧
    (exampleLabeler.RemoveAbsent exampleExisting "repo" Trace.empty).calls.map Call.target
      = (absentByMembership exampleLabeler.Config.Labels exampleExisting).map (·.Name) :=
  ⟨by decide, by decide,
    (scan_loops_eq_filter exampleLabeler exampleExisting "repo" (by decide) (by decide)).2.1,
    (scan_loops_eq_filter exampleLabeler exampleExisting "repo"
      (by decide) (by decide)).2.2.2.2.2⟩

/-- C16 (nil safety). If every desired and every existing label has a `Name`, and every
label whose name some label of the other list carries has a `Color`, then no phase reads an
absent field: `CreateMissing`, `UpdateExisting`, `RemoveAbsent` and `SetLabels` (for either
flag) all return instead of ending in a nil dereference.  Colors of labels without a
name-match may be absent. -/
theorem SetLabels_nil_safety (l : GHLabeler) (existing : Labels) (repo : String)
    (removeAbsent : Bool)
    (hdn : NamesPresent l.Config.Labels) (hen : NamesPresent existing)
    (hdc : ∀ d ∈ l.Config.Labels, (∃ e ∈ existing, e.Name = d.Name) → d.Color.isSome = true)
    (hec : ∀ e ∈ existing, (∃ d ∈ l.Config.Labels, d.Name = e.Name) → e.Color.isSome = true) :
    (l.CreateMissing existing repo Trace.empty).panicked = false ∧
    (l.UpdateExisting existing repo Trace.empty).panicked = false ∧
    (l.RemoveAbsent existing repo Trace.empty).panicked = false ∧
    (l.SetLabels existing repo removeAbsent Trace.empty).panicked = false := by
  have hcm : ∀ t, (CreateMissing.loop l existing repo l.Config.Labels t).panicked = false :=
    fun t => (CreateMissing_loop_eq l existing repo hen l.Config.Labels hdn t).1
  have hue : ∀ t, (UpdateExisting.loop l existing repo l.Config.Labels t).panicked = false := by
    intro t
    apply UpdateExisting_loop_safe
    intro d hd
    refine ⟨hdn d hd, fun e he => ⟨hen e he, fun hname => ?_⟩⟩
    exact ⟨hdc d hd ⟨e, he, hname⟩, hec e he ⟨d, hd, hname.symm⟩⟩
  have hra : ∀ t, (RemoveAbsent.loop l repo existing t).panicked = false :=
    fun t => (RemoveAbsent_loop_eq l repo hdn existing hen t).1
  refine ⟨hcm _, hue _, hra _, ?_⟩
  unfold GHLabeler.SetLabels GHLabeler.CreateMissing GHLabeler.UpdateExisting
    GHLabeler.RemoveAbsent
  rw [Outcome_eq_done_of_not_panicked (hcm _)]
  simp only [Outcome.andThen]
  rw [Outcome_eq_done_of_not_panicked (hue _)]
  simp only [Outcome.andThen]
  cases removeAbsent with
  | true => simpa using hra _
  | false => simp [Outcome.panicked]

/-- Witness of C16: the unmatched labels `wontfix` and `stale` have no color. -/
theorem SetLabels_nil_safety_witness :
    NamesPresent [mkLabel "bug" "d73a4a", Label.mk (some "wontfix") none none] ∧
    NamesPresent [mkLabel "bug" "cccccc", Label.mk (some "stale") none none] ∧
    ((GHLabeler.mk okClient ⟨"octo", "host",
        [mkLabel "bug" "d73a4a", Label.mk (some "wontfix") none none]⟩).SetLabels
      [mkLabel "bug" "cccccc", Label.mk (some "stale") none none] "repo" true
      Trace.empty).panicked = false :=
  ⟨by decide, by decide,
    (SetLabels_nil_safety
      ⟨okClient, ⟨"octo", "host",
        [mkLabel "bug" "d73a4a", Label.mk (some "wontfix") none none]⟩⟩
      [mkLabel "bug" "cccccc", Label.mk (some "stale") none none] "repo" true
      (by decide) (by decide) (by decide) (by decide)).2.2.2⟩

/-- C17 (at most one call per label). When every label has a name and a color and names
are unique within the desired and within the existing list, a `SetLabels` run returns with
at most one call per label name: the names of its calls are pairwise different.  So the
create and update calls together are no more than the desired labels, the delete calls no
more than the existing labels, and the update calls are as many as the desired labels that
meet an existing label of their name and another color. -/
theorem SetLabels_at_most_one_call (l : GHLabeler) (existing : Labels) (repo : String)
    (removeAbsent : Bool)
    (hds : WellFormed l.Config.Labels) (hex : WellFormed existing)
    (hud : UniqueNames l.Config.Labels) (hue : UniqueNames existing) :
    (l.SetLabels existing repo removeAbsent Trace.empty).panicked = false ∧
    ((l.SetLabels existing repo removeAbsent Trace.empty).calls.map Call.target).Nodup ∧
    (∀ n : String,
      (l.SetLabels existing repo removeAbsent Trace.empty).calls.countP
        (fun c => decide (c.target = some n)) ≤ 1) ∧
    ((l.SetLabels existing repo removeAbsent Trace.empty).calls.countP Call.isCreate
      + (l.SetLabels existing repo removeAbsent Trace.empty).calls.countP Call.isEdit
      ≤ l.Config.Labels.length) ∧
    ((l.SetLabels existing repo removeAbsent Trace.empty).calls.countP Call.isDelete
      ≤ existing.length) ∧
    ((l.SetLabels existing repo removeAbsent Trace.empty).calls.countP Call.isEdit
      = l.Config.Labels.countP fun d =>
          decide (∃ e ∈ existing, e.Name = d.Name ∧ e.Color ≠ d.Color)) := by
  obtain ⟨a1, a2⟩ := SetLabels_eq l existing repo removeAbsent hds hex Trace.empty
  have hcalls : (l.SetLabels existing repo removeAbsent Trace.empty).calls
      = plannedCalls l.Config.Owner repo l.Config.Labels existing removeAbsent := by
    rw [a2]; simp [Trace.empty]
  have hcross := SetLabels_cross_phase l existing repo removeAbsent
  rw [hcalls] at hcross ⊢
  obtain ⟨w1, w2, w3⟩ := plannedCalls_within_phase l.Config.Owner repo l.Config.Labels
    existing removeAbsent hds hex hud hue
  obtain ⟨p1, p2, p3⟩ := plannedCalls_phases l.Config.Owner repo l.Config.Labels existing
    removeAbsent
  have hpw : (plannedCalls l.Config.Owner repo l.Config.Labels existing removeAbsent).Pairwise
      fun a b => a.target ≠ b.target :=
    pairwise_of_three _ _ _ w1 w2 w3 p1 p2 p3 hcross
  obtain ⟨c1, c2, c3⟩ := plannedCalls_counts l.Config.Owner repo l.Config.Labels existing
    removeAbsent
  have hedit := editCalls_length l.Config.Owner repo l.Config.Labels existing hue
  refine ⟨a1, List.pairwise_map.mpr hpw, ?_, ?_, ?_, ?_⟩
  · intro n
    exact countP_le_one_of_pairwise Call.target (some n) _ hpw
  · rw [c1, c2, hedit, unmatched, ← List.countP_eq_length_filter]
    apply countP_add_le_length
    intro d _ hp
    have hno : ∀ e ∈ existing, e.Name ≠ d.Name := by simpa using hp
    simp only [decide_eq_false_iff_not]
    rintro ⟨e, he, hn, _⟩
    exact hno e he hn
  · rw [c3]
    cases removeAbsent with
    | false => simp
    | true => simpa [unmatched] using List.length_filter_le _ existing
  · rw [c2, hedit]

/-- Witness of C17 on the example scenario. -/
theorem SetLabels_at_most_one_call_witness :
    WellFormed exampleLabeler.Config.Labels ∧ WellFormed exampleExisting ∧
    UniqueNames exampleLabeler.Config.Labels ∧ UniqueNames exampleExisting ∧
    ((exampleLabeler.SetLabels exampleExisting "repo" true Trace.empty).calls.map
      Call.target).Nodup :=
  ⟨by decide, by decide, by decide, by decide,
    (SetLabels_at_most_one_call exampleLabeler exampleExisting "repo" true
      (by decide) (by decide) (by decide) (by decide)).2.1⟩

end Ghlabels
